import Mathlib

/-!
Verification of the `media-types` crate (Media Type / MIME type parsing,
classification and serialization).

Shallow embedding conventions:
* bytes are `Nat` (ASCII codes; the Rust code operates on `&[u8]`);
* Rust `String`s / byte buffers are `List Nat`;
* `std::collections::HashMap<_, _>` is modelled as an association list kept
  strictly sorted by key (the canonical representative of the map), so that
  Lean equality of the model coincides with `HashMap` equality in Rust and
  `Display`'s `sort_by` is reflected by an explicit insertion sort;
* a Rust panic (an out-of-bounds slice index `sequence[*s]`) is `Option.none`;
  every tokenizer function returns `Option _` where `none` means the original
  code panics at that point;
* the cursor `*s` into the immutable byte buffer is modelled by passing the
  remaining suffix of the byte list (all accesses in the source are at `*s`
  or `*s + 1` and the cursor only moves forward);
* the tokenizer loops of `utils.rs` are translated one loop per Lean
  function, made total with a fuel argument that strictly decreases at each
  loop iteration; every loop of the source consumes at least one input byte
  per iteration (or terminates), so `input length + 8` fuel is always enough.
-/

namespace MediaTypes

/-! ### Byte-string literals (ASCII codes of the string constants in the source) -/

def bStar : List Nat := [42]
def bText : List Nat := [116, 101, 120, 116]
def bImage : List Nat := [105, 109, 97, 103, 101]
def bAudio : List Nat := [97, 117, 100, 105, 111]
def bVideo : List Nat := [118, 105, 100, 101, 111]
def bApplication : List Nat := [97, 112, 112, 108, 105, 99, 97, 116, 105, 111, 110]
def bMultipart : List Nat := [109, 117, 108, 116, 105, 112, 97, 114, 116]
def bMessage : List Nat := [109, 101, 115, 115, 97, 103, 101]
def bModel : List Nat := [109, 111, 100, 101, 108]
def bVnd : List Nat := [118, 110, 100]
def bPrs : List Nat := [112, 114, 115]
def bXf : List Nat := [120]
def bOgg : List Nat := [111, 103, 103]
def bZip : List Nat := [122, 105, 112]
def bXml : List Nat := [120, 109, 108]
def bHtml : List Nat := [104, 116, 109, 108]
def bPdf : List Nat := [112, 100, 102]
def bFontTtf : List Nat := [102, 111, 110, 116, 45, 116, 116, 102]
def bFontCff : List Nat := [102, 111, 110, 116, 45, 99, 102, 102]
def bFontOff : List Nat := [102, 111, 110, 116, 45, 111, 102, 102]
def bFontSfnt : List Nat := [102, 111, 110, 116, 45, 115, 102, 110, 116]
def bMsOpentype : List Nat := [109, 115, 45, 111, 112, 101, 110, 116, 121, 112, 101]
def bFontWoff : List Nat := [102, 111, 110, 116, 45, 119, 111, 102, 102]
def bMsFontobject : List Nat := [109, 115, 45, 102, 111, 110, 116, 111, 98, 106, 101, 99, 116]
def bRar : List Nat := [120, 45, 114, 97, 114, 45, 99, 111, 109, 112, 114, 101, 115, 115, 101, 100]
def bGzip : List Nat := [120, 45, 103, 122, 105, 112]
def bBoundaryKey : List Nat := [98, 111, 117, 110, 100, 97, 114, 121]

/-! ### `src/error.rs` -/

/-- `error.rs`: `enum Error { Invalid, NotFound, Utf8Error(Utf8Error) }`.
The payload of `Utf8Error` (a byte position) is dropped; no claim compares
two `Utf8Error` values. -/
inductive Error where
  | Invalid : Error
  | NotFound : Error
  | Utf8Error : Error
deriving DecidableEq, Repr

/-! ### Grammar predicates (`src/utils.rs` lines 6-47), at byte level.

The source predicates work on Rust `char`s of an already UTF-8-validated
string.  All characters accepted by any of these classes are ASCII, so on a
valid UTF-8 string the byte-level and char-level readings of `all`/`last`
agree (a non-ASCII char yields a leading byte which fails the class exactly
when the char does). -/

/-- `ALPHA = %x41-5A / %x61-7A` -/
def alpha (c : Nat) : Bool :=
  (decide (65 ≤ c) && decide (c ≤ 90)) || (decide (97 ≤ c) && decide (c ≤ 122))

/-- `DIGIT = %x30-39` -/
def digit (c : Nat) : Bool := decide (48 ≤ c) && decide (c ≤ 57)

/-- `tchar` (HTTP token characters). -/
def tchar (c : Nat) : Bool :=
  (c == 33) || (c == 35) || (c == 36) || (c == 37) || (c == 38) || (c == 39) ||
  (c == 42) || (c == 43) || (c == 45) || (c == 46) || (c == 94) || (c == 95) ||
  (c == 96) || (c == 124) || (c == 126) || digit c || alpha c

/-- `bcharsnospace` of RFC 2046 section 5.1. -/
def bcharsnospace (c : Nat) : Bool :=
  digit c || alpha c || (c == 39) || (c == 40) || (c == 41) || (c == 43) ||
  (c == 95) || (c == 44) || (c == 45) || (c == 46) || (c == 47) || (c == 58) ||
  (c == 61) || (c == 63)

/-- `bchars := bcharsnospace / " "` -/
def bchars (c : Nat) : Bool := bcharsnospace c || (c == 32)

/-- `token = 1*tchar` (`utils::token`). -/
def token (s : List Nat) : Bool := !s.isEmpty && s.all tchar

/-- `utils::boundary`: `boundary := 0*69<bchars> bcharsnospace`.
`s.chars().last().unwrap()` cannot panic because `!s.is_empty()` is checked
first (short-circuit), so the `none` branch of `getLast?` is unreachable and
mapped to `false`. -/
def boundary (s : List Nat) : Bool :=
  !s.isEmpty && decide (s.length ≤ 70) && s.all bchars &&
    (match s.getLast? with
     | some c => bcharsnospace c
     | none => false)

/-- `utils::is_whitespace`: HTTP whitespace bytes (space, \n, \r, \t). -/
def is_whitespace (c : Nat) : Bool := (c == 32) || (c == 10) || (c == 13) || (c == 9)

/-- `u8::to_ascii_lowercase`. -/
def lowerByte (b : Nat) : Nat := if 65 ≤ b ∧ b ≤ 90 then b + 32 else b

/-- UTF-8 validation (`String::from_utf8` succeeding), as in RFC 3629 /
Rust std: `utf8Aux n lo hi l` expects `n` continuation bytes, the next one in
`[lo, hi]`, subsequent ones in `[0x80, 0xBF]`. -/
def utf8Aux : Nat → Nat → Nat → List Nat → Bool
  | 0, _, _, [] => true
  | _ + 1, _, _, [] => false
  | 0, _, _, b :: rest =>
    if b ≤ 127 then utf8Aux 0 0 0 rest
    else if 194 ≤ b ∧ b ≤ 223 then utf8Aux 1 128 191 rest
    else if b = 224 then utf8Aux 2 160 191 rest
    else if 225 ≤ b ∧ b ≤ 236 then utf8Aux 2 128 191 rest
    else if b = 237 then utf8Aux 2 128 159 rest
    else if 238 ≤ b ∧ b ≤ 239 then utf8Aux 2 128 191 rest
    else if b = 240 then utf8Aux 3 144 191 rest
    else if 241 ≤ b ∧ b ≤ 243 then utf8Aux 3 128 191 rest
    else if b = 244 then utf8Aux 3 128 143 rest
    else false
  | n + 1, lo, hi, b :: rest =>
    if lo ≤ b ∧ b ≤ hi then utf8Aux n 128 191 rest else false

/-- A byte list is valid UTF-8. -/
def utf8Valid (l : List Nat) : Bool := utf8Aux 0 0 0 l

/-! ### The data model (`src/lib.rs` lines 36-125) -/

/-- `enum Type` (top-level media types; `Type` is a Lean keyword, hence
`TType`). -/
inductive TType where
  | Text : TType
  | Image : TType
  | Audio : TType
  | Video : TType
  | Application : TType
  | Multipart : TType
  | Message : TType
  | Model : TType
  | Unregistered : List Nat → TType
deriving DecidableEq, Repr

/-- `enum Tree` (registration trees). -/
inductive Tree where
  | Standards : Tree
  | Vendor : Tree
  | Personal : Tree
  | Private : Tree
  | Unregistered : List Nat → Tree
deriving DecidableEq, Repr

/-- The parameter map: `HashMap<Cow<str>, Cow<str>>` modelled as a key-sorted
association list with unique keys (its canonical representative). -/
abbrev Params := List (List Nat × List Nat)

/-- `struct MediaType`. -/
structure MediaType where
  type_ : Option TType
  subtype : Option (Tree × List Nat × Option (List Nat))
  parameters : Params
deriving DecidableEq, Repr

/-! ### Map operations on the sorted-association-list model of `HashMap` -/

/-- Strict byte-lexicographic order on byte strings (= `Ord` on Rust
`str`/`[u8]`, used by `Display`'s `sort_by(first.cmp(second))`). -/
def lexLt : List Nat → List Nat → Bool
  | _, [] => false
  | [], _ :: _ => true
  | x :: xs, y :: ys => if x < y then true else if y < x then false else lexLt xs ys

/-- `HashMap::insert` on the sorted model: replaces an equal key (last write
wins), otherwise inserts in order. -/
def insertP (k v : List Nat) : Params → Params
  | [] => [(k, v)]
  | (k2, v2) :: rest =>
    if lexLt k k2 then (k, v) :: (k2, v2) :: rest
    else if k = k2 then (k, v) :: rest
    else (k2, v2) :: insertP k v rest

/-- `HashMap::get`. -/
def lookupP (k : List Nat) : Params → Option (List Nat)
  | [] => none
  | (k2, v2) :: rest => if k = k2 then some v2 else lookupP k rest

/-- Insertion sort by key, reflecting `items.sort_by(first.cmp(second))` in
`Display for MediaType` (on canonical sorted maps it is the identity). -/
def sortP : Params → Params
  | [] => []
  | (k, v) :: rest => insertP k v (sortP rest)

/-! ### The tokenizer (`src/utils.rs` lines 59-222), one Lean function per
source loop.  `none` = the source indexes `sequence[*s]` past the end and
panics. -/

/-- The `while is_whitespace(sequence[s])` loops (`utils.rs` lines 216-218,
163-165, 203-205): no bounds check, so exhausting the input inside the loop
indexes past the end (`none`). -/
def skipWsStrict : Nat → List Nat → Option (List Nat)
  | 0, _ => none
  | _ + 1, [] => none
  | fuel + 1, b :: rest =>
    if is_whitespace b then skipWsStrict fuel rest else some (b :: rest)

/-- First loop of `parse_type_portion` (lines 63-73): accumulate the type
until `/` (consumed); `Invalid` if the counter exceeds 127 or the input ends. -/
def typeLoop : Nat → Nat → List Nat → List Nat → Option (Except Error (List Nat × List Nat))
  | 0, _, _, _ => none
  | _ + 1, t, _, [] => if t > 127 then some (.error .Invalid) else some (.error .Invalid)
  | fuel + 1, t, acc, b :: rest =>
    if t > 127 then some (.error .Invalid)
    else if b = 47 then some (.ok (acc, rest))
    else typeLoop fuel (t + 1) (acc ++ [lowerByte b]) rest

/-- Second loop of `parse_type_portion` (lines 75-89): accumulate the subtype
until whitespace, `;` or end of input (end of input is a successful return). -/
def subtypeLoop : Nat → Nat → List Nat → List Nat → Option (Except Error (List Nat × List Nat))
  | 0, _, _, _ => none
  | _ + 1, u, acc, [] =>
    if u > 127 then some (.error .Invalid) else some (.ok (acc, []))
  | fuel + 1, u, acc, b :: rest =>
    if u > 127 then some (.error .Invalid)
    else if is_whitespace b || b = 59 then some (.ok (acc, b :: rest))
    else subtypeLoop fuel (u + 1) (acc ++ [lowerByte b]) rest

/-- Loop `'M3` of `parse_value` (lines 100-112), cursor just after the opening
quote.  On end of input the source evaluates `sequence[*s] == b'"'` inside the
first `if`, which indexes past the end: `none`.  A backslash with a following
byte escapes it (backslash dropped); a trailing backslash is pushed and the
next iteration hits the end of input. -/
def quotedValueLoop : Nat → List Nat → List Nat → Option (List Nat × List Nat)
  | 0, _, _ => none
  | _ + 1, _, [] => none
  | fuel + 1, acc, b :: rest =>
    if b = 34 then some (acc, rest)
    else if b = 92 then
      match rest with
      | [] => quotedValueLoop fuel (acc ++ [92]) []
      | c :: rest2 => quotedValueLoop fuel (acc ++ [c]) rest2
    else quotedValueLoop fuel (acc ++ [b]) rest

/-- Loop `'M4` of `parse_value` (lines 114-120): unquoted value up to
whitespace, `;` or end of input. -/
def unquotedValueLoop : Nat → List Nat → List Nat → Option (List Nat × List Nat)
  | 0, _, _ => none
  | _ + 1, acc, [] => some (acc, [])
  | fuel + 1, acc, b :: rest =>
    if is_whitespace b || b = 59 then some (acc, b :: rest)
    else unquotedValueLoop fuel (acc ++ [b]) rest

/-- `parse_value` (lines 93-122). -/
def parse_value : Nat → List Nat → Option (List Nat × List Nat)
  | _, [] => some ([], [])
  | fuel, b :: rest =>
    if b = 34 then quotedValueLoop fuel [] rest
    else unquotedValueLoop fuel [] (b :: rest)

/-- Loop `'N` of `parse_parameters` (lines 137-148): skip a quoted string.
Same out-of-bounds read as `'M3` when the input ends before the closing
quote. -/
def skipQuotedLoop : Nat → List Nat → Option (List Nat)
  | 0, _ => none
  | _ + 1, [] => none
  | fuel + 1, b :: rest =>
    if b = 34 then some rest
    else if b = 92 then
      match rest with
      | [] => skipQuotedLoop fuel []
      | _ :: rest2 => skipQuotedLoop fuel rest2
    else skipQuotedLoop fuel rest

/-- Loop `'N2` of `parse_parameters` (lines 150-156): skip an unquoted run up
to whitespace, `;` or end of input. -/
def skipUnquotedLoop : Nat → List Nat → Option (List Nat)
  | 0, _ => none
  | _ + 1, [] => some []
  | fuel + 1, b :: rest =>
    if is_whitespace b || b = 59 then some (b :: rest)
    else skipUnquotedLoop fuel rest

/-- Loop `'M` of `parse_parameters` (lines 127-158): scan forward to the next
top-level `;` (or end of input), skipping whitespace, quoted strings and
unquoted runs. -/
def skipToSemiLoop : Nat → List Nat → Option (List Nat)
  | 0, _ => none
  | _ + 1, [] => some []
  | fuel + 1, b :: rest =>
    if b = 59 then some (b :: rest)
    else if is_whitespace b then skipToSemiLoop fuel rest
    else if b = 34 then
      match skipQuotedLoop fuel rest with
      | none => none
      | some r => skipToSemiLoop fuel r
    else
      match skipUnquotedLoop fuel (b :: rest) with
      | none => none
      | some r => skipToSemiLoop fuel r

/-- Inner name-accumulation loop (lines 171-188).  The loop condition
`!(is_whitespace(sequence[*s]) || sequence[*s] == b'=')` indexes the buffer
first, so reaching the end of input here is an out-of-bounds read (`none`);
the `is_undefined` early-return inside the branch (lines 176-181, which would
register a trailing empty-valued parameter) is unreachable. -/
def nameInner : Nat → Nat → List Nat → List Nat → Option (Except Error (List Nat × Nat × List Nat))
  | 0, _, _, _ => none
  | _ + 1, _, _, [] => none
  | fuel + 1, p, name, b :: rest =>
    if is_whitespace b || b = 61 then some (.ok (name, p, b :: rest))
    else if p > 127 then some (.error .Invalid)
    else nameInner fuel (p + 1) (name ++ [lowerByte b]) rest

/-- Whitespace loop between name and `=` (lines 189-197): pushes the skipped
whitespace onto `extra`; the condition indexes the buffer, so end of input
here is an out-of-bounds read (`none`). -/
def extraWsLoop : Nat → Nat → List Nat → List Nat → Option (List Nat × Nat × List Nat)
  | 0, _, _, _ => none
  | _ + 1, _, _, [] => none
  | fuel + 1, p, extra, b :: rest =>
    if is_whitespace b then extraWsLoop fuel (p + 1) (extra ++ [b]) rest
    else some (extra, p, b :: rest)

/-- Loop `'M2` (lines 169-201): at each iteration `extra` (never cleared) is
appended to `name`; on `=` the loop breaks and the `*s += 1` of line 202 is
included (the returned list starts after the `=`).  `nameInner` and
`extraWsLoop` both return a cursor at an in-bounds byte, so the `[]` cases
after them are unreachable (`none` keeps the function total). -/
def nameLoop : Nat → List Nat → List Nat → Nat → List Nat → Option (Except Error (List Nat × List Nat))
  | 0, _, _, _, _ => none
  | fuel + 1, name, extra, p, l =>
    match nameInner fuel p (name ++ extra) l with
    | none => none
    | some (.error e) => some (.error e)
    | some (.ok (name2, p2, l2)) =>
      match extraWsLoop fuel p2 extra l2 with
      | none => none
      | some (extra2, p3, l3) =>
        match l3 with
        | [] => none
        | b :: rest =>
          if b = 61 then some (.ok (name2, rest))
          else nameLoop fuel name2 extra2 p3 (b :: rest)

/-- Loop `'L` of `parse_parameters` (lines 124-207): skip to `;`, consume it,
skip whitespace (line 163, may read out of bounds), accumulate the name,
consume `=`, skip whitespace (line 203, may read out of bounds), parse the
value, insert it (last write wins) and continue. -/
def paramsLoop : Nat → Params → List Nat → Option (Except Error Params)
  | 0, _, _ => none
  | fuel + 1, params, l =>
    match skipToSemiLoop fuel l with
    | none => none
    | some [] => some (.ok params)
    | some (_ :: l2) =>
      match skipWsStrict fuel l2 with
      | none => none
      | some l3 =>
        match nameLoop fuel [] [] 0 l3 with
        | none => none
        | some (.error e) => some (.error e)
        | some (.ok (name, l4)) =>
          match skipWsStrict fuel l4 with
          | none => none
          | some l5 =>
            match parse_value fuel l5 with
            | none => none
            | some (value, l6) => paramsLoop fuel (insertP name value params) l6

/-- Fuel bound: every tokenizer loop consumes at least one byte per iteration
(or immediately terminates), so the input length plus slack is enough. -/
def F (l : List Nat) : Nat := l.length + 8

/-- `utils::parse_media_type` (lines 210-222): empty input is `Invalid`; the
leading-whitespace skip has no bounds check (all-whitespace input panics);
then the type portion and the parameters. -/
def parse_media_type (l : List Nat) :
    Option (Except Error (List Nat × List Nat × Params)) :=
  if l = [] then some (.error .Invalid)
  else
    match skipWsStrict (F l) l with
    | none => none
    | some l1 =>
      match typeLoop (F l) 0 [] l1 with
      | none => none
      | some (.error e) => some (.error e)
      | some (.ok (ty, l2)) =>
        match subtypeLoop (F l) 0 [] l2 with
        | none => none
        | some (.error e) => some (.error e)
        | some (.ok (st, l3)) =>
          match paramsLoop (F l) [] l3 with
          | none => none
          | some (.error e) => some (.error e)
          | some (.ok ps) => some (.ok (ty, st, ps))

/-! ### The structuring stage (`impl FromStr for MediaType`, `lib.rs`
lines 318-376) -/

/-- The type-token match of `from_str` (lines 322-333): `*` is the wildcard,
the eight registered names map to their variants, anything else is
`Unregistered` after UTF-8 validation. -/
def typeOfBytes (ty : List Nat) : Except Error (Option TType) :=
  if ty = bStar then .ok none
  else if ty = bText then .ok (some .Text)
  else if ty = bImage then .ok (some .Image)
  else if ty = bAudio then .ok (some .Audio)
  else if ty = bVideo then .ok (some .Video)
  else if ty = bApplication then .ok (some .Application)
  else if ty = bMultipart then .ok (some .Multipart)
  else if ty = bMessage then .ok (some .Message)
  else if ty = bModel then .ok (some .Model)
  else if utf8Valid ty then .ok (some (.Unregistered ty))
  else .error .Utf8Error

/-- `subtype.rsplitn(2, '+')` (lines 347-354): split at the last `+`;
`some (pre, suf)` iff the list contains a `+` (byte 43), with `suf` the part
after the last `+`.  On a valid UTF-8 string the byte 43 occurs exactly at
the char `+`, so the byte-level split agrees with the char-level one. -/
def rsplitPlus : List Nat → Option (List Nat × List Nat)
  | [] => none
  | b :: rest =>
    match rsplitPlus rest with
    | some (p, s) => some (b :: p, s)
    | none => if b = 43 then some ([], rest) else none

/-- `prefix.splitn(2, '.')` (lines 355-366): split at the first `.` (byte 46). -/
def splitDot : List Nat → Option (List Nat × List Nat)
  | [] => none
  | b :: rest =>
    if b = 46 then some ([], rest)
    else
      match splitDot rest with
      | some (f, r) => some (b :: f, r)
      | none => none

/-- The tree-facet match of `from_str` (lines 357-362). -/
def facetTree (f : List Nat) : Tree :=
  if f = bVnd then .Vendor
  else if f = bPrs then .Personal
  else if f = bXf then .Private
  else .Unregistered f

/-- The subtype branch of `from_str` (lines 339-374): `*` is the wildcard
subtype; otherwise UTF-8-validate, split the optional `+suffix` at the last
`+`, then the optional tree facet at the first `.`. -/
def structureSubtype (st : List Nat) :
    Except Error (Option (Tree × List Nat × Option (List Nat))) :=
  if st = bStar then .ok none
  else if utf8Valid st then
    let ps := match rsplitPlus st with
      | some (p, s) => (p, some s)
      | none => (st, none)
    let ts := match splitDot ps.1 with
      | some (f, r) => (facetTree f, r)
      | none => (Tree.Standards, ps.1)
    .ok (some (ts.1, ts.2, ps.2))
  else .error .Utf8Error

/-- The parameter conversion loop of `from_str` (lines 334-338): each raw
`(key, value)` pair is UTF-8-validated and inserted into a fresh map.  The
`HashMap` iteration order is immaterial: keys are unique, and whether some
pair fails validation does not depend on the order (the `Utf8Error` payload,
which would, is dropped from the model). -/
def convertParams : Params → Params → Except Error Params
  | acc, [] => .ok acc
  | acc, (k, v) :: rest =>
    if utf8Valid k && utf8Valid v then convertParams (insertP k v acc) rest
    else .error .Utf8Error

/-- `<MediaType as FromStr>::from_str` via `String::parse` (`lib.rs` lines
318-376).  `none` = the tokenizer panics. -/
def fromStr (l : List Nat) : Option (Except Error MediaType) :=
  match parse_media_type l with
  | none => none
  | some (.error e) => some (.error e)
  | some (.ok (ty, st, ps)) =>
    match typeOfBytes ty with
    | .error e => some (.error e)
    | .ok t =>
      match convertParams [] ps with
      | .error e => some (.error e)
      | .ok params =>
        match structureSubtype st with
        | .error e => some (.error e)
        | .ok sub => some (.ok ⟨t, sub, params⟩)

/-! ### `Display` (`lib.rs` lines 81-125 and 378-407) -/

/-- `impl Display for Type` (lines 81-95). -/
def displayType : TType → List Nat
  | .Text => bText
  | .Image => bImage
  | .Audio => bAudio
  | .Video => bVideo
  | .Application => bApplication
  | .Multipart => bMultipart
  | .Message => bMessage
  | .Model => bModel
  | .Unregistered s => s

/-- `impl Display for Tree` (lines 115-125): the facet followed by `.`;
`Standards` renders nothing. -/
def displayTree : Tree → List Nat
  | .Standards => []
  | .Vendor => bVnd ++ [46]
  | .Personal => bPrs ++ [46]
  | .Private => bXf ++ [46]
  | .Unregistered s => s ++ [46]

/-- One `; key=value` item (lines 398-404): the value is written bare if it
matches `token`, else wrapped in quotes with no internal escaping. -/
def renderParam (k v : List Nat) : List Nat :=
  [59, 32] ++ k ++ [61] ++ (if token v then v else [34] ++ v ++ [34])

/-- The parameter section of `Display for MediaType`, over the sorted items. -/
def renderParams : Params → List Nat
  | [] => []
  | (k, v) :: rest => renderParam k v ++ renderParams rest

/-- `impl Display for MediaType` (lines 378-407): wildcard type renders
`*/*` regardless of the subtype field; a present type renders
`type/tree.sub+suffix` (or `type/*` with no subtype); then the parameters
sorted by key. -/
def display (m : MediaType) : List Nat :=
  (match m.type_ with
   | some t =>
     displayType t ++ [47] ++
       (match m.subtype with
        | some (tr, sub, sufOpt) =>
          displayTree tr ++ sub ++
            (match sufOpt with
             | some suf => [43] ++ suf
             | none => [])
        | none => bStar)
   | none => bStar ++ [47] ++ bStar) ++
  renderParams (sortP m.parameters)

/-! ### Constructors, accessors and classification predicates
(`lib.rs` lines 127-315) -/

/-- `MediaType::new` (without parameters). -/
def mtNew (t : TType) (tr : Tree) (sub : List Nat) : MediaType :=
  ⟨some t, some (tr, sub, none), []⟩

/-- `MediaType::suffix`. -/
def suffix (m : MediaType) : Option (List Nat) :=
  match m.subtype with
  | some (_, _, some s) => some s
  | _ => none

/-- `MediaType::eq_mime_portion`: type and subtype equal, parameters ignored. -/
def eq_mime_portion (a b : MediaType) : Bool :=
  decide (a.type_ = b.type_) && decide (a.subtype = b.subtype)

/-- `MediaType::boundary` (`lib.rs` lines 201-207). -/
def mtBoundary (m : MediaType) : Except Error (List Nat) :=
  match lookupP bBoundaryKey m.parameters with
  | none => .error .NotFound
  | some v => if boundary v then .ok v else .error .Invalid

/-- `MediaType::is_image_type`. -/
def is_image_type (m : MediaType) : Bool := decide (m.type_ = some .Image)

/-- `MediaType::is_audio_or_video_type`. -/
def is_audio_or_video_type (m : MediaType) : Bool :=
  decide (m.type_ = some .Audio) || decide (m.type_ = some .Video) ||
    eq_mime_portion (mtNew .Application .Standards bOgg) m

/-- `MediaType::is_font_type`. -/
def is_font_type (m : MediaType) : Bool :=
  ([mtNew .Application .Standards bFontTtf,
    mtNew .Application .Standards bFontCff,
    mtNew .Application .Standards bFontOff,
    mtNew .Application .Standards bFontSfnt,
    mtNew .Application .Vendor bMsOpentype,
    mtNew .Application .Standards bFontWoff,
    mtNew .Application .Vendor bMsFontobject]).any (fun x => eq_mime_portion x m)

/-- `MediaType::is_zip_based_type`. -/
def is_zip_based_type (m : MediaType) : Bool :=
  decide (suffix m = some bZip) || eq_mime_portion (mtNew .Application .Standards bZip) m

/-- `MediaType::is_archive_type`. -/
def is_archive_type (m : MediaType) : Bool :=
  ([mtNew .Application .Standards bRar,
    mtNew .Application .Standards bZip,
    mtNew .Application .Standards bGzip]).any (fun x => eq_mime_portion x m)

/-- `MediaType::is_xml_type`. -/
def is_xml_type (m : MediaType) : Bool :=
  decide (suffix m = some bXml) ||
    ([mtNew .Text .Standards bXml,
      mtNew .Application .Standards bXml]).any (fun x => eq_mime_portion x m)

/-- `MediaType::is_scriptable_mime_type`. -/
def is_scriptable_mime_type (m : MediaType) : Bool :=
  ([mtNew .Text .Standards bHtml,
    mtNew .Application .Standards bPdf]).any (fun x => eq_mime_portion x m)

/-! ### Auxiliary definitions for the statements of the claims -/

/-- `insertP` folded over a list of pairs (the parameter-conversion loop of
`from_str`, and the sequence of inserts performed by `parse_parameters`). -/
def insertAllP : Params → Params → Params
  | acc, [] => acc
  | acc, (k, v) :: rest => insertAllP (insertP k v acc) rest

/-- The keys of a parameter list are strictly increasing (the canonical-map
invariant of the `HashMap` model). -/
def sortedKeys : Params → Bool
  | [] => true
  | [_] => true
  | (k1, _) :: (k2, v2) :: rest => lexLt k1 k2 && sortedKeys ((k2, v2) :: rest)

/-- Spec-side reading of the boundary grammar `0*69<bchars> bcharsnospace`:
non-empty, at most 70 characters, every character in the boundary alphabet,
and the last character not a space. -/
def specBoundary (v : List Nat) : Prop :=
  v ≠ [] ∧ v.length ≤ 70 ∧ (∀ b ∈ v, bchars b = true) ∧
    (∀ b, v.getLast? = some b → b ≠ 32)

/-- Spec-side reading of the registration-tree split: the text before the
left-most `.` selects the tree (`vnd` Vendor, `prs` Personal, `x` Private,
anything else Unregistered), the rest is the subtype; without a `.` the
subtype is in the Standards tree. -/
def treeSplitSpec (pre : List Nat) (tr : Tree) (sub : List Nat) : Prop :=
  (∃ f r, pre = f ++ 46 :: r ∧ (∀ b ∈ f, b ≠ 46) ∧
    tr = (if f = bVnd then Tree.Vendor
          else if f = bPrs then Tree.Personal
          else if f = bXf then Tree.Private
          else Tree.Unregistered f) ∧ sub = r) ∨
  ((∀ b ∈ pre, b ≠ 46) ∧ tr = Tree.Standards ∧ sub = pre)

/-! ### The invariant bundle for the round-trip theorem.

`rtSafe` collects (a) structural invariants that every value produced by
`fromStr` satisfies (lowercased fields, no delimiter bytes inside tokens,
length caps, canonical sorted parameter map, valid UTF-8) and (b) the three
genuine restrictions forced by counterexamples: no wildcard type with a
concrete subtype, no whitespace inside parameter keys, and no `"`/`\`
bytes inside parameter values (the serializer does not escape them). -/

/-- Every byte is fixed by ASCII lowercasing. -/
def lowerFixed (l : List Nat) : Bool := l.all (fun b => lowerByte b == b)

/-- The first byte (if any) is not HTTP whitespace. -/
def headNonWs : List Nat → Bool
  | [] => true
  | b :: _ => !is_whitespace b

/-- The subtype token as `Display` rewrites it: tree prefix, subtype, then
`+suffix`. -/
def stokOf (tr : Tree) (sub : List Nat) (sufOpt : Option (List Nat)) : List Nat :=
  displayTree tr ++ sub ++ (match sufOpt with | some s => [43] ++ s | none => [])

/-- Invariants of the type field. -/
def typeSafe : Option TType → Bool
  | none => true
  | some (.Unregistered t) =>
    utf8Valid t && lowerFixed t && t.all (fun b => decide (b ≠ 47)) && headNonWs t &&
      decide (t.length ≤ 127) && decide (t ≠ bStar) && decide (t ≠ bText) &&
      decide (t ≠ bImage) && decide (t ≠ bAudio) && decide (t ≠ bVideo) &&
      decide (t ≠ bApplication) && decide (t ≠ bMultipart) &&
      decide (t ≠ bMessage) && decide (t ≠ bModel)
  | some _ => true

/-- Invariants of the subtype field, phrased on the re-serialized subtype
token. -/
def subSafe : Option (Tree × List Nat × Option (List Nat)) → Bool
  | none => true
  | some (tr, sub, sufOpt) =>
    let stok := stokOf tr sub sufOpt
    utf8Valid stok && lowerFixed stok &&
      stok.all (fun b => !is_whitespace b && decide (b ≠ 59)) &&
      decide (stok.length ≤ 127) && decide (stok ≠ bStar) &&
      (match sufOpt with
       | some suf => suf.all (fun b => decide (b ≠ 43))
       | none => stok.all (fun b => decide (b ≠ 43))) &&
      (match tr with
       | .Unregistered f =>
         f.all (fun b => decide (b ≠ 46)) && decide (f ≠ bVnd) &&
           decide (f ≠ bPrs) && decide (f ≠ bXf)
       | .Standards => sub.all (fun b => decide (b ≠ 46))
       | _ => true)

/-- Invariants of one parameter pair: valid UTF-8, key lowercased with no
whitespace and no `=`, key within the 128-byte accumulation cap, value free
of `"` and `\` (the two bytes the serializer cannot round-trip). -/
def pairSafe (k v : List Nat) : Bool :=
  utf8Valid k && utf8Valid v && lowerFixed k &&
    k.all (fun b => !is_whitespace b && decide (b ≠ 61)) &&
    decide (k.length ≤ 128) &&
    v.all (fun b => decide (b ≠ 34) && decide (b ≠ 92))

/-- The full round-trip invariant bundle. -/
def rtSafe (m : MediaType) : Bool :=
  typeSafe m.type_ && subSafe m.subtype && sortedKeys m.parameters &&
    m.parameters.all (fun kv => pairSafe kv.1 kv.2) &&
    (match m.type_ with
     | none => m.subtype.isNone
     | some _ => true)

/-- The type portion as `Display` writes it (before the `/`). -/
def tyRender (m : MediaType) : List Nat :=
  match m.type_ with
  | some t => displayType t
  | none => bStar

/-- The subtype portion as `Display` writes it (between `/` and the
parameters). -/
def stRender (m : MediaType) : List Nat :=
  match m.type_ with
  | some _ =>
    match m.subtype with
    | some (tr, sub, sufOpt) => stokOf tr sub sufOpt
    | none => bStar
  | none => bStar

/-! ### Concrete inputs and values used by the claims -/

/-- The RFC 2231 example input of the spec:
`application/x-stuff; title*=us-ascii'en-us'This is%20%2A%2A%2Afun%2A%2A%2A`. -/
def c1in : List Nat :=
  [97, 112, 112, 108, 105, 99, 97, 116, 105, 111, 110, 47, 120, 45, 115, 116,
   117, 102, 102, 59, 32, 116, 105, 116, 108, 101, 42, 61, 117, 115, 45, 97,
   115, 99, 105, 105, 39, 101, 110, 45, 117, 115, 39, 84, 104, 105, 115, 32,
   105, 115, 37, 50, 48, 37, 50, 65, 37, 50, 65, 37, 50, 65, 102, 117, 110,
   37, 50, 65, 37, 50, 65, 37, 50, 65]

/-- The bytes of `title*` (the raw stored key). -/
def c1key : List Nat := [116, 105, 116, 108, 101, 42]

/-- The bytes of `us-ascii'en-us'This` (the raw stored value: the unquoted
value scan stops at the space). -/
def c1val : List Nat :=
  [117, 115, 45, 97, 115, 99, 105, 105, 39, 101, 110, 45, 117, 115, 39, 84,
   104, 105, 115]

/-- The bytes of `title`. -/
def c1title : List Nat := [116, 105, 116, 108, 101]

/-- The bytes of `x-stuff`. -/
def c1sub : List Nat := [120, 45, 115, 116, 117, 102, 102]

/-- The value `parse` produces on `c1in`. -/
def c1mt : MediaType :=
  ⟨some .Application, some (.Standards, c1sub, none), [(c1key, c1val)]⟩

/-- The bytes of `*/html`. -/
def c2in : List Nat := [42, 47, 104, 116, 109, 108]

/-- The value `parse` produces on `*/html`: wildcard type with a concrete
subtype. -/
def c2mt : MediaType := ⟨none, some (.Standards, bHtml, none), []⟩

/-- The bytes of `text/plain; a="b` (quoted value, no closing quote). -/
def c4in : List Nat :=
  [116, 101, 120, 116, 47, 112, 108, 97, 105, 110, 59, 32, 97, 61, 34, 98]

/-- The bytes of `text/plain; foo` (end of input inside the name loop). -/
def c5in : List Nat :=
  [116, 101, 120, 116, 47, 112, 108, 97, 105, 110, 59, 32, 102, 111, 111]

/-- The bytes of `text/` (empty subtype token). -/
def c9in : List Nat := [116, 101, 120, 116, 47]

/-- The bytes of `text/html; a=b` (round-trip witness input). -/
def w2in : List Nat :=
  [116, 101, 120, 116, 47, 104, 116, 109, 108, 59, 32, 97, 61, 98]

/-- The value `parse` produces on `text/html; a=b`. -/
def w2mt : MediaType :=
  ⟨some .Text, some (.Standards, bHtml, none), [([97], [98])]⟩

/-- The bytes of `image/svg+xml`. -/
def w7in : List Nat :=
  [105, 109, 97, 103, 101, 47, 115, 118, 103, 43, 120, 109, 108]

/-- The bytes of `svg`. -/
def bSvg : List Nat := [115, 118, 103]

/-- The bytes of `svg+xml`. -/
def w7st : List Nat := [115, 118, 103, 43, 120, 109, 108]

/-- Invariant of a parameter key established by the name-accumulation loop:
every byte is fixed by lowercasing and is not `=`; and a key free of
whitespace (i.e. built in a single `'M2` iteration, without the
`extra`-requeue quirk) respects the 128-byte accumulation cap. -/
def KeyInv (k : List Nat) : Prop :=
  (∀ b ∈ k, lowerByte b = b ∧ b ≠ 61) ∧
    ((∀ b ∈ k, is_whitespace b = false) → k.length ≤ 128)

/-! # Theorems -/

/-! ## General helper lemmas -/

theorem bcharsnospace_space : bcharsnospace 32 = false := by decide

theorem bchars_ne_space {b : Nat} (h : bchars b = true) (hne : b ≠ 32) :
    bcharsnospace b = true := by
  rcases Bool.or_eq_true _ _ |>.mp h with h1 | h1
  · exact h1
  · exact absurd (eq_of_beq h1) hne

/-- `utils::boundary` agrees with the spec-side reading of the grammar. -/
theorem boundary_iff_spec (v : List Nat) : boundary v = true ↔ specBoundary v := by
  cases hlast : v.getLast? with
  | none =>
    have hv : v = [] := List.getLast?_eq_none_iff.mp hlast
    subst hv
    simp [boundary, specBoundary]
  | some b =>
    have hne : v ≠ [] := by
      intro h
      subst h
      simp at hlast
    have hbv : b ∈ v := by
      obtain ⟨h0, heq⟩ := List.mem_getLast?_eq_getLast (Option.mem_def.mpr hlast)
      exact heq ▸ List.getLast_mem h0
    have hemp : v.isEmpty = false := by
      cases v
      · exact absurd rfl hne
      · rfl
    unfold boundary specBoundary
    rw [hlast, hemp]
    simp only [Bool.not_false, Bool.true_and, Bool.and_eq_true, List.all_eq_true,
      decide_eq_true_eq]
    constructor
    · rintro ⟨⟨hlen, hall⟩, hsp⟩
      refine ⟨hne, hlen, hall, ?_⟩
      intro c hc
      cases Option.some.inj hc
      intro h32
      subst h32
      rw [bcharsnospace_space] at hsp
      exact Bool.false_ne_true hsp
    · rintro ⟨-, hlen, hall, hsp⟩
      exact ⟨⟨hlen, hall⟩, bchars_ne_space (hall b hbv) (hsp b rfl)⟩

/-- Skipping whitespace with the unguarded `while` loop over an
all-whitespace buffer runs off the end. -/
theorem skipWsStrict_allws (l : List Nat) :
    ∀ fuel, (∀ b ∈ l, is_whitespace b = true) → skipWsStrict fuel l = none := by
  induction l with
  | nil => intro fuel _; cases fuel <;> rfl
  | cons b rest ih =>
    intro fuel h
    cases fuel with
    | zero => rfl
    | succ f =>
      rw [skipWsStrict, h b (by simp), if_pos rfl]
      exact ih f (fun x hx => h x (List.mem_cons_of_mem _ hx))

/-! ## Claims -/

/-- Claim C1, counterexample: on the spec's RFC 2231 example input, `parse`
succeeds but stores the raw pair `title* ↦ us-ascii'en-us'This`; there is no
`title` key, so `parameters["title"]` is not `This is ***fun***` and no
RFC 2231 decoding takes place. -/
theorem claim1_counterexample :
    fromStr c1in = some (.ok c1mt) ∧ lookupP c1title c1mt.parameters = none :=
  ⟨rfl, rfl⟩

/-- Claim C1, amended: `parse` succeeds on the example input, but performs no
RFC 2231 extended-notation processing: the parameter is stored under the raw
lowercased key `title*` (trailing `*` kept) with the raw value
`us-ascii'en-us'This` (no percent-decoding, no `charset'language'` stripping;
the unquoted-value scan stops at the space before `is%20...`). -/
theorem claim1_theorem :
    fromStr c1in = some (.ok c1mt) ∧ lookupP c1key c1mt.parameters = some c1val :=
  ⟨rfl, rfl⟩

/-- Claim C2, counterexample: `parse("*/html")` yields the wildcard-typed
value with concrete subtype `html`; its serialization is `*/*`, which parses
back to the full wildcard, not to the original value.  Hence
`parse(v.to_string()) == Ok(v)` fails for this parser-produced `v`. -/
theorem claim2_counterexample :
    fromStr c2in = some (.ok c2mt) ∧ display c2mt = [42, 47, 42] ∧
      fromStr (display c2mt) = some (.ok ⟨none, none, []⟩) ∧
      (⟨none, none, []⟩ : MediaType) ≠ c2mt := by
  refine ⟨rfl, rfl, rfl, ?_⟩
  decide

/-- Claim C3: on every non-empty all-whitespace input the claim expects
`Err(Invalid)`, but the unguarded whitespace-skip loop of `parse_media_type`
(utils.rs line 216) indexes past the end of the buffer: the code panics
(`none`), an out-of-range access does occur. -/
theorem claim3_theorem (l : List Nat) (hne : l ≠ [])
    (hws : ∀ b ∈ l, is_whitespace b = true) : fromStr l = none := by
  have hskip : skipWsStrict (F l) l = none := skipWsStrict_allws l (F l) hws
  unfold fromStr parse_media_type
  rw [if_neg hne, hskip]

theorem claim3_witness :
    ([32] : List Nat) ≠ [] ∧ (∀ b ∈ ([32] : List Nat), is_whitespace b = true) ∧
      fromStr [32] = none :=
  ⟨by decide, by decide, claim3_theorem [32] (by decide) (by decide)⟩

/-- Claim C4: on `text/plain; a="b` (quoted parameter value, end of input
before the closing quote) the claim expects success with value `b`; instead
the `'M3` loop of `parse_value` (utils.rs line 102) evaluates
`sequence[*s] == b'"'` with the cursor past the end: out-of-bounds read,
the code panics (`none`). -/
theorem claim4_theorem : fromStr c4in = none := rfl

/-- Claim C5: on `text/plain; foo` (end of input while accumulating a
parameter name) the claim expects `Ok` with `foo` registered with an empty
value; instead the name-loop condition (utils.rs line 172) indexes
`sequence[*s]` before the `is_undefined` check of line 176, so the code
panics (`none`) and the registration branch is unreachable. -/
theorem claim5_theorem : fromStr c5in = none := rfl

/-- Claim C6: `boundary()` returns `NotFound` iff the parameter map has no
`boundary` key; `Invalid` iff a value is present but violates the grammar
`0*69<bchars> bcharsnospace` (non-empty, at most 70 characters, all in the
boundary alphabet, last character not a space); otherwise `Ok` with the
stored value unchanged — stored values are only checked on access. -/
theorem claim6_theorem (m : MediaType) :
    (mtBoundary m = .error .NotFound ↔ lookupP bBoundaryKey m.parameters = none) ∧
      (mtBoundary m = .error .Invalid ↔
        ∃ v, lookupP bBoundaryKey m.parameters = some v ∧ ¬specBoundary v) ∧
      (∀ v, mtBoundary m = .ok v ↔
        lookupP bBoundaryKey m.parameters = some v ∧ specBoundary v) := by
  unfold mtBoundary
  cases h : lookupP bBoundaryKey m.parameters with
  | none => exact ⟨by simp, by simp, fun v => by simp⟩
  | some v =>
    dsimp only
    by_cases hb : boundary v = true
    · have hspec : specBoundary v := (boundary_iff_spec v).mp hb
      rw [if_pos hb]
      refine ⟨by simp, ?_, ?_⟩
      · constructor
        · intro h2
          exact absurd h2 (by simp)
        · rintro ⟨v2, hv2, hnot⟩
          cases Option.some.inj hv2
          exact absurd hspec hnot
      · intro v2
        constructor
        · intro h2
          cases Except.ok.inj h2
          exact ⟨rfl, hspec⟩
        · rintro ⟨hv2, -⟩
          cases Option.some.inj hv2
          rfl
    · have hspec : ¬specBoundary v := fun hs => hb ((boundary_iff_spec v).mpr hs)
      rw [if_neg hb]
      refine ⟨by simp, ⟨fun _ => ⟨v, rfl, hspec⟩, fun _ => rfl⟩, ?_⟩
      intro v2
      constructor
      · intro h2
        exact absurd h2 (by simp)
      · rintro ⟨hv2, hs⟩
        cases Option.some.inj hv2
        exact absurd hs hspec

/-- Characterization of `rsplitn(2, '+')`: it returns `none` exactly when
there is no `+`. -/
theorem rsplitPlus_none_iff (l : List Nat) :
    rsplitPlus l = none ↔ ∀ b ∈ l, b ≠ 43 := by
  induction l with
  | nil => simp [rsplitPlus]
  | cons b rest ih =>
    unfold rsplitPlus
    cases h : rsplitPlus rest with
    | some pr =>
      simp only [List.mem_cons]
      constructor
      · intro h2
        exact absurd h2 (by simp)
      · intro h2
        have : rsplitPlus rest = none := ih.mpr fun x hx => h2 x (Or.inr hx)
        rw [h] at this
        exact absurd this (by simp)
    | none =>
      by_cases hb : b = 43
      · subst hb
        simp
      · simp only [if_neg hb, List.mem_cons]
        constructor
        · intro _ x hx
          rcases hx with rfl | hx
          · exact hb
          · exact ih.mp h x hx
        · intro _
          trivial

/-- Soundness of `rsplitn(2, '+')`: a successful split reconstructs the
input around the right-most `+`. -/
theorem rsplitPlus_some (l : List Nat) :
    ∀ p s, rsplitPlus l = some (p, s) → l = p ++ 43 :: s ∧ ∀ b ∈ s, b ≠ 43 := by
  induction l with
  | nil => intro p s h; simp [rsplitPlus] at h
  | cons b rest ih =>
    intro p s h
    unfold rsplitPlus at h
    cases h2 : rsplitPlus rest with
    | some pr =>
      obtain ⟨p2, s2⟩ := pr
      rw [h2] at h
      simp only [Option.some.injEq, Prod.mk.injEq] at h
      obtain ⟨hp, hs⟩ := h
      obtain ⟨hrest, hnos⟩ := ih p2 s2 h2
      subst hp
      subst hs
      exact ⟨by rw [hrest]; rfl, hnos⟩
    | none =>
      rw [h2] at h
      by_cases hb : b = 43
      · subst hb
        rw [if_pos rfl] at h
        simp only [Option.some.injEq, Prod.mk.injEq] at h
        obtain ⟨hp, hs⟩ := h
        subst hp
        subst hs
        exact ⟨rfl, (rsplitPlus_none_iff rest).mp h2⟩
      · rw [if_neg hb] at h
        exact absurd h (by simp)

/-- Computation of `rsplitn(2, '+')` on a built token: the split happens at
the right-most `+`. -/
theorem rsplitPlus_append (p s : List Nat) (hs : ∀ b ∈ s, b ≠ 43) :
    rsplitPlus (p ++ 43 :: s) = some (p, s) := by
  induction p with
  | nil =>
    rw [List.nil_append]
    simp only [rsplitPlus]
    rw [(rsplitPlus_none_iff s).mpr hs]
    simp
  | cons b p2 ih =>
    rw [List.cons_append]
    simp only [rsplitPlus]
    rw [ih]

/-- Characterization of `splitn(2, '.')`: `none` exactly when there is no
`.`. -/
theorem splitDot_none_iff (l : List Nat) :
    splitDot l = none ↔ ∀ b ∈ l, b ≠ 46 := by
  induction l with
  | nil => simp [splitDot]
  | cons b rest ih =>
    unfold splitDot
    by_cases hb : b = 46
    · subst hb
      simp
    · rw [if_neg hb]
      cases h : splitDot rest with
      | some fr =>
        simp only [List.mem_cons]
        constructor
        · intro h2
          exact absurd h2 (by simp)
        · intro h2
          have : splitDot rest = none := ih.mpr fun x hx => h2 x (Or.inr hx)
          rw [h] at this
          exact absurd this (by simp)
      | none =>
        simp only [List.mem_cons]
        constructor
        · intro _ x hx
          rcases hx with rfl | hx
          · exact hb
          · exact ih.mp h x hx
        · intro _
          trivial

/-- Soundness of `splitn(2, '.')`: a successful split reconstructs the input
around the left-most `.`. -/
theorem splitDot_some (l : List Nat) :
    ∀ f r, splitDot l = some (f, r) → l = f ++ 46 :: r ∧ ∀ b ∈ f, b ≠ 46 := by
  induction l with
  | nil => intro f r h; simp [splitDot] at h
  | cons b rest ih =>
    intro f r h
    unfold splitDot at h
    by_cases hb : b = 46
    · subst hb
      rw [if_pos rfl] at h
      simp only [Option.some.injEq, Prod.mk.injEq] at h
      obtain ⟨hf, hr⟩ := h
      subst hf
      subst hr
      exact ⟨rfl, by simp⟩
    · rw [if_neg hb] at h
      cases h2 : splitDot rest with
      | some fr =>
        obtain ⟨f2, r2⟩ := fr
        rw [h2] at h
        simp only [Option.some.injEq, Prod.mk.injEq] at h
        obtain ⟨hf, hr⟩ := h
        obtain ⟨hrest, hnof⟩ := ih f2 r2 h2
        subst hf
        subst hr
        refine ⟨by rw [hrest]; rfl, ?_⟩
        intro x hx
        rcases List.mem_cons.mp hx with rfl | hx
        · exact hb
        · exact hnof x hx
      | none =>
        rw [h2] at h
        exact absurd h (by simp)

/-- Computation of `splitn(2, '.')` on a built token: the split happens at
the left-most `.`. -/
theorem splitDot_append (f r : List Nat) (hf : ∀ b ∈ f, b ≠ 46) :
    splitDot (f ++ 46 :: r) = some (f, r) := by
  induction f with
  | nil => rfl
  | cons b f2 ih =>
    have hb : b ≠ 46 := hf b (by simp)
    rw [List.cons_append]
    simp only [splitDot]
    rw [if_neg hb, ih fun x hx => hf x (List.mem_cons_of_mem _ hx)]

/-- Claim C7: for a successfully parsed input whose subtype token is not
`*`: a token containing `+` is split at the right-most `+` into the subtype
portion and the suffix; the portion before the `+` (or the whole token) is
split at the left-most `.` into a tree facet (`vnd` Vendor, `prs` Personal,
`x` Private, otherwise Unregistered) and the subtype; without a `.` the tree
is Standards. -/
theorem claim7_theorem (l ty st : List Nat) (ps : Params) (m : MediaType)
    (hp : parse_media_type l = some (.ok (ty, st, ps)))
    (hf : fromStr l = some (.ok m)) (hst : st ≠ bStar) :
    ∃ tr sub sufOpt, m.subtype = some (tr, sub, sufOpt) ∧
      ((∃ pre suf, st = pre ++ 43 :: suf ∧ (∀ b ∈ suf, b ≠ 43) ∧ sufOpt = some suf ∧
          treeSplitSpec pre tr sub) ∨
        ((∀ b ∈ st, b ≠ 43) ∧ sufOpt = none ∧ treeSplitSpec st tr sub)) := by
  unfold fromStr at hf
  rw [hp] at hf
  dsimp only at hf
  cases hty : typeOfBytes ty with
  | error e => rw [hty] at hf; exact absurd hf (by simp)
  | ok t =>
    rw [hty] at hf
    cases hcv : convertParams [] ps with
    | error e => rw [hcv] at hf; exact absurd hf (by simp)
    | ok pars =>
      rw [hcv] at hf
      cases hss : structureSubtype st with
      | error e => rw [hss] at hf; exact absurd hf (by simp)
      | ok sub =>
        rw [hss] at hf
        simp only [Option.some.injEq, Except.ok.injEq] at hf
        have hmsub : m.subtype = sub := by rw [← hf]
        unfold structureSubtype at hss
        rw [if_neg hst] at hss
        by_cases hu : utf8Valid st = true
        · rw [if_pos hu] at hss
          cases hr : rsplitPlus st with
          | some pr =>
            obtain ⟨p, s⟩ := pr
            rw [hr] at hss
            dsimp only at hss
            obtain ⟨hsplit, hnos⟩ := rsplitPlus_some st p s hr
            cases hd : splitDot p with
            | some fr =>
              obtain ⟨f, r⟩ := fr
              rw [hd] at hss
              simp only [Except.ok.injEq] at hss
              obtain ⟨hpre, hnof⟩ := splitDot_some p f r hd
              refine ⟨facetTree f, r, some s, by rw [hmsub, ← hss], Or.inl ?_⟩
              refine ⟨p, s, hsplit, hnos, rfl, Or.inl ⟨f, r, hpre, hnof, ?_, rfl⟩⟩
              rfl
            | none =>
              rw [hd] at hss
              simp only [Except.ok.injEq] at hss
              refine ⟨.Standards, p, some s, by rw [hmsub, ← hss], Or.inl ?_⟩
              exact ⟨p, s, hsplit, hnos, rfl,
                Or.inr ⟨(splitDot_none_iff p).mp hd, rfl, rfl⟩⟩
          | none =>
            rw [hr] at hss
            dsimp only at hss
            have hno43 : ∀ b ∈ st, b ≠ 43 := (rsplitPlus_none_iff st).mp hr
            cases hd : splitDot st with
            | some fr =>
              obtain ⟨f, r⟩ := fr
              rw [hd] at hss
              simp only [Except.ok.injEq] at hss
              obtain ⟨hpre, hnof⟩ := splitDot_some st f r hd
              refine ⟨facetTree f, r, none, by rw [hmsub, ← hss], Or.inr ?_⟩
              exact ⟨hno43, rfl, Or.inl ⟨f, r, hpre, hnof, rfl, rfl⟩⟩
            | none =>
              rw [hd] at hss
              simp only [Except.ok.injEq] at hss
              refine ⟨.Standards, st, none, by rw [hmsub, ← hss], Or.inr ?_⟩
              exact ⟨hno43, rfl, Or.inr ⟨(splitDot_none_iff st).mp hd, rfl, rfl⟩⟩
        · rw [if_neg hu] at hss
          exact absurd hss (by simp)

theorem claim7_witness :
    parse_media_type w7in = some (.ok (bImage, w7st, [])) ∧
      fromStr w7in =
        some (.ok ⟨some .Image, some (.Standards, bSvg, some bXml), []⟩) ∧
      w7st ≠ bStar ∧
      (∃ tr sub sufOpt,
        (⟨some .Image, some (.Standards, bSvg, some bXml), []⟩ : MediaType).subtype =
            some (tr, sub, sufOpt) ∧
          ((∃ pre suf, w7st = pre ++ 43 :: suf ∧ (∀ b ∈ suf, b ≠ 43) ∧
              sufOpt = some suf ∧ treeSplitSpec pre tr sub) ∨
            ((∀ b ∈ w7st, b ≠ 43) ∧ sufOpt = none ∧ treeSplitSpec w7st tr sub))) :=
  ⟨rfl, rfl, by decide,
    claim7_theorem w7in bImage w7st [] _ rfl rfl (by decide)⟩

/-- Claim C8: every classification predicate depends only on the mime
portion (type and subtype, hence also the derived tree and suffix);
parameters never change any predicate's result. -/
theorem claim8_theorem (a b : MediaType) (ht : a.type_ = b.type_)
    (hs : a.subtype = b.subtype) :
    is_image_type a = is_image_type b ∧
      is_audio_or_video_type a = is_audio_or_video_type b ∧
      is_font_type a = is_font_type b ∧
      is_zip_based_type a = is_zip_based_type b ∧
      is_archive_type a = is_archive_type b ∧
      is_xml_type a = is_xml_type b ∧
      is_scriptable_mime_type a = is_scriptable_mime_type b := by
  cases a with
  | mk t1 s1 p1 =>
    cases b with
    | mk t2 s2 p2 =>
      dsimp only at ht hs
      subst ht
      subst hs
      exact ⟨rfl, rfl, rfl, rfl, rfl, rfl, rfl⟩

theorem claim8_witness :
    (⟨some .Text, some (.Standards, bHtml, none), []⟩ : MediaType).type_ =
        (⟨some .Text, some (.Standards, bHtml, none), [([97], [98])]⟩ : MediaType).type_ ∧
      (⟨some .Text, some (.Standards, bHtml, none), []⟩ : MediaType).subtype =
        (⟨some .Text, some (.Standards, bHtml, none), [([97], [98])]⟩ : MediaType).subtype ∧
      (is_image_type ⟨some .Text, some (.Standards, bHtml, none), []⟩ =
          is_image_type ⟨some .Text, some (.Standards, bHtml, none), [([97], [98])]⟩ ∧
        is_audio_or_video_type ⟨some .Text, some (.Standards, bHtml, none), []⟩ =
          is_audio_or_video_type ⟨some .Text, some (.Standards, bHtml, none), [([97], [98])]⟩ ∧
        is_font_type ⟨some .Text, some (.Standards, bHtml, none), []⟩ =
          is_font_type ⟨some .Text, some (.Standards, bHtml, none), [([97], [98])]⟩ ∧
        is_zip_based_type ⟨some .Text, some (.Standards, bHtml, none), []⟩ =
          is_zip_based_type ⟨some .Text, some (.Standards, bHtml, none), [([97], [98])]⟩ ∧
        is_archive_type ⟨some .Text, some (.Standards, bHtml, none), []⟩ =
          is_archive_type ⟨some .Text, some (.Standards, bHtml, none), [([97], [98])]⟩ ∧
        is_xml_type ⟨some .Text, some (.Standards, bHtml, none), []⟩ =
          is_xml_type ⟨some .Text, some (.Standards, bHtml, none), [([97], [98])]⟩ ∧
        is_scriptable_mime_type ⟨some .Text, some (.Standards, bHtml, none), []⟩ =
          is_scriptable_mime_type ⟨some .Text, some (.Standards, bHtml, none), [([97], [98])]⟩) :=
  ⟨rfl, rfl, claim8_theorem _ _ rfl rfl⟩

/-- Claim C9: an empty subtype token is accepted: `parse("text/")` returns
`Ok` with type `Text`, subtype `(Standards, "", None)` and no parameters
(end of input right after `/` is a successful return in the subtype loop). -/
theorem claim9_theorem :
    fromStr c9in = some (.ok ⟨some .Text, some (.Standards, [], none), []⟩) := rfl

/-! ## Order and map lemmas for the round-trip proof -/

theorem lexLt_irrefl (l : List Nat) : lexLt l l = false := by
  induction l with
  | nil => rfl
  | cons b rest ih => simp [lexLt, ih]

theorem lexLt_asymm (a b : List Nat) (h : lexLt a b = true) : lexLt b a = false := by
  induction a generalizing b with
  | nil =>
    cases b with
    | nil => simp [lexLt] at h
    | cons y ys => rfl
  | cons x xs ih =>
    cases b with
    | nil => simp [lexLt] at h
    | cons y ys =>
      unfold lexLt at h ⊢
      by_cases hxy : x < y
      · rw [if_neg (by omega : ¬ y < x), if_pos hxy]
      · rw [if_neg hxy] at h
        by_cases hyx : y < x
        · rw [if_pos hyx] at h
          exact absurd h (by simp)
        · rw [if_neg hyx] at h
          rw [if_neg hyx, if_neg hxy]
          exact ih ys h

theorem lexLt_ne (a b : List Nat) (h : lexLt a b = true) : a ≠ b := by
  intro he
  subst he
  rw [lexLt_irrefl] at h
  exact absurd h (by simp)

theorem lexLt_trans (a : List Nat) :
    ∀ b c, lexLt a b = true → lexLt b c = true → lexLt a c = true := by
  induction a with
  | nil =>
    intro b c h1 h2
    cases c with
    | nil =>
      cases b with
      | nil => exact h1
      | cons y ys => simp [lexLt] at h2
    | cons z zs => rfl
  | cons x xs ih =>
    intro b c h1 h2
    cases b with
    | nil => simp [lexLt] at h1
    | cons y ys =>
      cases c with
      | nil => simp [lexLt] at h2
      | cons z zs =>
        unfold lexLt at h1 h2 ⊢
        by_cases hxy : x < y
        · by_cases hyz : y < z
          · rw [if_pos (by omega : x < z)]
          · rw [if_neg hyz] at h2
            by_cases hzy : z < y
            · rw [if_pos hzy] at h2
              exact absurd h2 (by simp)
            · have heq : y = z := by omega
              subst heq
              rw [if_pos hxy]
        · rw [if_neg hxy] at h1
          by_cases hyx : y < x
          · rw [if_pos hyx] at h1
            exact absurd h1 (by simp)
          · rw [if_neg hyx] at h1
            have heq : x = y := by omega
            subst heq
            by_cases hyz : x < z
            · rw [if_pos hyz]
            · rw [if_neg hyz] at h2 ⊢
              by_cases hzy : z < x
              · rw [if_pos hzy] at h2
                exact absurd h2 (by simp)
              · rw [if_neg hzy] at h2 ⊢
                exact ih ys zs h1 h2

/-- Inserting a key greater than every key of a sorted list appends it. -/
theorem insertP_append (k v : List Nat) (ps : Params)
    (h : ∀ kv ∈ ps, lexLt kv.1 k = true) : insertP k v ps = ps ++ [(k, v)] := by
  induction ps with
  | nil => rfl
  | cons kv rest ih =>
    obtain ⟨k2, v2⟩ := kv
    have hk2 : lexLt k2 k = true := h (k2, v2) (by simp)
    have h1 : ¬ (lexLt k k2 = true) := by
      rw [lexLt_asymm k2 k hk2]
      simp
    have h2 : ¬ (k = k2) := fun he => lexLt_ne k2 k hk2 he.symm
    unfold insertP
    rw [if_neg h1, if_neg h2, ih fun kv hkv => h kv (List.mem_cons_of_mem _ hkv)]
    rfl

theorem sortedKeys_cons (k : List Nat) (v : List Nat) (ps : Params)
    (h : sortedKeys ((k, v) :: ps) = true) :
    sortedKeys ps = true ∧ ∀ kv ∈ ps, lexLt k kv.1 = true := by
  induction ps generalizing k v with
  | nil => exact ⟨rfl, by simp⟩
  | cons kv2 rest ih =>
    obtain ⟨k2, v2⟩ := kv2
    unfold sortedKeys at h
    obtain ⟨h1, h2⟩ := Bool.and_eq_true _ _ |>.mp h
    refine ⟨h2, ?_⟩
    intro kv hkv
    rcases List.mem_cons.mp hkv with rfl | hkv
    · exact h1
    · exact lexLt_trans _ _ _ h1 ((ih k2 v2 h2).2 kv hkv)

theorem insertAllP_append (ps : Params) :
    ∀ acc, sortedKeys ps = true →
      (∀ kv ∈ acc, ∀ kv2 ∈ ps, lexLt kv.1 kv2.1 = true) →
      insertAllP acc ps = acc ++ ps := by
  induction ps with
  | nil =>
    intro acc _ _
    simp [insertAllP]
  | cons kv rest ih =>
    intro acc hps hacc
    obtain ⟨k, v⟩ := kv
    obtain ⟨hrest, hbelow⟩ := sortedKeys_cons k v rest hps
    unfold insertAllP
    rw [insertP_append k v acc fun kv2 hkv2 => hacc kv2 hkv2 (k, v) (by simp)]
    rw [ih (acc ++ [(k, v)]) hrest ?_]
    · simp
    · intro kv2 hkv2 kv3 hkv3
      rcases List.mem_append.mp hkv2 with h | h
      · exact hacc kv2 h kv3 (List.mem_cons_of_mem _ hkv3)
      · rw [List.mem_singleton.mp h]
        exact hbelow kv3 hkv3

theorem insertAllP_nil (ps : Params) (h : sortedKeys ps = true) :
    insertAllP [] ps = ps := by
  rw [insertAllP_append ps [] h (by simp)]
  rfl

theorem convertParams_run (ps : Params) :
    ∀ acc, (∀ kv ∈ ps, utf8Valid kv.1 = true ∧ utf8Valid kv.2 = true) →
      convertParams acc ps = .ok (insertAllP acc ps) := by
  induction ps with
  | nil => intro acc _; rfl
  | cons kv rest ih =>
    intro acc h
    obtain ⟨k, v⟩ := kv
    obtain ⟨h1, h2⟩ := h (k, v) (by simp)
    unfold convertParams insertAllP
    rw [if_pos (show (utf8Valid k && utf8Valid v) = true by rw [h1, h2]; rfl)]
    exact ih _ fun kv hkv => h kv (List.mem_cons_of_mem _ hkv)

theorem sortP_id (ps : Params) (h : sortedKeys ps = true) : sortP ps = ps := by
  induction ps with
  | nil => rfl
  | cons kv rest ih =>
    obtain ⟨k, v⟩ := kv
    obtain ⟨hrest, hbelow⟩ := sortedKeys_cons k v rest h
    unfold sortP
    rw [ih hrest]
    cases rest with
    | nil => rfl
    | cons kv2 rest2 =>
      obtain ⟨k2, v2⟩ := kv2
      unfold insertP
      rw [if_pos (hbelow (k2, v2) (by simp))]

theorem lexLt_total (a : List Nat) : ∀ b, lexLt a b = true ∨ a = b ∨ lexLt b a = true := by
  induction a with
  | nil =>
    intro b
    cases b with
    | nil => exact Or.inr (Or.inl rfl)
    | cons y ys => exact Or.inl rfl
  | cons x xs ih =>
    intro b
    cases b with
    | nil => exact Or.inr (Or.inr rfl)
    | cons y ys =>
      rcases Nat.lt_trichotomy x y with hxy | hxy | hxy
      · exact Or.inl (by unfold lexLt; rw [if_pos hxy])
      · subst hxy
        rcases ih ys with h | h | h
        · exact Or.inl (by unfold lexLt; rw [if_neg (by omega), if_neg (by omega)]; exact h)
        · exact Or.inr (Or.inl (by rw [h]))
        · exact Or.inr (Or.inr (by unfold lexLt; rw [if_neg (by omega), if_neg (by omega)]; exact h))
      · exact Or.inr (Or.inr (by unfold lexLt; rw [if_pos hxy]))

theorem mem_insertP (k v : List Nat) (ps : Params) :
    ∀ kv ∈ insertP k v ps, kv = (k, v) ∨ kv ∈ ps := by
  induction ps with
  | nil =>
    intro kv hkv
    simp only [insertP, List.mem_singleton] at hkv
    exact Or.inl hkv
  | cons kv2 rest ih =>
    intro kv hkv
    obtain ⟨k2, v2⟩ := kv2
    unfold insertP at hkv
    by_cases h1 : lexLt k k2 = true
    · rw [if_pos h1] at hkv
      rcases List.mem_cons.mp hkv with rfl | hkv2
      · exact Or.inl rfl
      · exact Or.inr hkv2
    · rw [if_neg h1] at hkv
      by_cases h2 : k = k2
      · rw [if_pos h2] at hkv
        rcases List.mem_cons.mp hkv with rfl | hkv2
        · exact Or.inl rfl
        · exact Or.inr (List.mem_cons_of_mem _ hkv2)
      · rw [if_neg h2] at hkv
        rcases List.mem_cons.mp hkv with rfl | hkv2
        · exact Or.inr (by simp)
        · rcases ih kv hkv2 with h | h
          · exact Or.inl h
          · exact Or.inr (List.mem_cons_of_mem _ h)

theorem sortedKeys_cons_of (a : List Nat × List Nat) (l : Params)
    (hl : sortedKeys l = true) (hhead : ∀ kv ∈ l, lexLt a.1 kv.1 = true) :
    sortedKeys (a :: l) = true := by
  obtain ⟨k, v⟩ := a
  cases l with
  | nil => rfl
  | cons b r =>
    obtain ⟨k2, v2⟩ := b
    unfold sortedKeys
    rw [hhead (k2, v2) (by simp), hl]
    rfl

theorem insertP_sortedKeys (k v : List Nat) (ps : Params)
    (h : sortedKeys ps = true) : sortedKeys (insertP k v ps) = true := by
  induction ps with
  | nil => rfl
  | cons kv2 rest ih =>
    obtain ⟨k2, v2⟩ := kv2
    obtain ⟨hrest, hbelow⟩ := sortedKeys_cons k2 v2 rest h
    unfold insertP
    by_cases h1 : lexLt k k2 = true
    · rw [if_pos h1]
      refine sortedKeys_cons_of (k, v) ((k2, v2) :: rest) h ?_
      intro kv hkv
      rcases List.mem_cons.mp hkv with rfl | hkv2
      · exact h1
      · exact lexLt_trans _ _ _ h1 (hbelow kv hkv2)
    · rw [if_neg h1]
      by_cases h2 : k = k2
      · rw [if_pos h2]
        subst h2
        exact sortedKeys_cons_of (k, v) rest hrest hbelow
      · rw [if_neg h2]
        have hk2k : lexLt k2 k = true := by
          rcases lexLt_total k k2 with h3 | h3 | h3
          · exact absurd h3 h1
          · exact absurd h3 h2
          · exact h3
        refine sortedKeys_cons_of (k2, v2) (insertP k v rest) (ih hrest) ?_
        intro kv hkv
        rcases mem_insertP k v rest kv hkv with rfl | hkv2
        · exact hk2k
        · exact hbelow kv hkv2

/-! ## Tokenizer run lemmas for the round-trip proof -/

theorem tchar_props (b : Nat) (h : tchar b = true) :
    is_whitespace b = false ∧ b ≠ 59 ∧ b ≠ 34 := by
  simp only [tchar, digit, alpha, Bool.or_eq_true, Bool.and_eq_true, beq_iff_eq,
    decide_eq_true_eq] at h
  simp only [is_whitespace, Bool.or_eq_false_iff, beq_eq_false_iff_ne, ne_eq]
  omega

theorem skipWsStrict_run (l : List Nat) (fuel : Nat) (hne : l ≠ [])
    (hhd : headNonWs l = true) (hf : 1 ≤ fuel) : skipWsStrict fuel l = some l := by
  cases l with
  | nil => exact absurd rfl hne
  | cons b rest =>
    obtain ⟨f, rfl⟩ : ∃ f, fuel = f + 1 := ⟨fuel - 1, by omega⟩
    have hb : is_whitespace b = false := by
      simpa only [headNonWs, Bool.not_eq_true'] using hhd
    unfold skipWsStrict
    rw [hb]
    simp

theorem skipWsStrict_space (b : Nat) (l : List Nat) (fuel : Nat)
    (hb : is_whitespace b = false) (hf : 2 ≤ fuel) :
    skipWsStrict fuel (32 :: b :: l) = some (b :: l) := by
  obtain ⟨f, rfl⟩ : ∃ f, fuel = f + 2 := ⟨fuel - 2, by omega⟩
  show skipWsStrict (f + 1 + 1) _ = _
  unfold skipWsStrict
  rw [show is_whitespace 32 = true from rfl, if_pos rfl]
  unfold skipWsStrict
  rw [hb]
  simp

theorem typeLoop_run (t : List Nat) :
    ∀ (rest acc : List Nat) (i fuel : Nat),
      (∀ b ∈ t, lowerByte b = b ∧ b ≠ 47) → i + t.length ≤ 127 →
      t.length + 1 ≤ fuel →
      typeLoop fuel i acc (t ++ 47 :: rest) = some (.ok (acc ++ t, rest)) := by
  induction t with
  | nil =>
    intro rest acc i fuel _ hi hf
    obtain ⟨f, rfl⟩ : ∃ f, fuel = f + 1 := ⟨fuel - 1, by omega⟩
    rw [List.nil_append]
    unfold typeLoop
    rw [if_neg (by omega), if_pos rfl]
    simp
  | cons b t2 ih =>
    intro rest acc i fuel hbytes hi hf
    obtain ⟨f, rfl⟩ : ∃ f, fuel = f + 1 := ⟨fuel - 1, by omega⟩
    obtain ⟨hlb, hb47⟩ := hbytes b (by simp)
    rw [List.cons_append]
    unfold typeLoop
    rw [if_neg (by simp at hi; omega), if_neg hb47, hlb]
    rw [ih rest (acc ++ [b]) (i + 1) f
      (fun x hx => hbytes x (List.mem_cons_of_mem _ hx))
      (by simp at hi ⊢; omega) (by simp at hf ⊢; omega)]
    simp

theorem subtypeLoop_run (st : List Nat) :
    ∀ (rest acc : List Nat) (i fuel : Nat),
      (∀ b ∈ st, lowerByte b = b ∧ is_whitespace b = false ∧ b ≠ 59) →
      i + st.length ≤ 127 → st.length + 1 ≤ fuel →
      (rest = [] ∨ ∃ r, rest = 59 :: r) →
      subtypeLoop fuel i acc (st ++ rest) = some (.ok (acc ++ st, rest)) := by
  induction st with
  | nil =>
    intro rest acc i fuel _ hi hf htail
    obtain ⟨f, rfl⟩ : ∃ f, fuel = f + 1 := ⟨fuel - 1, by omega⟩
    rw [List.nil_append]
    rcases htail with rfl | ⟨r, rfl⟩
    · unfold subtypeLoop
      rw [if_neg (by omega)]
      simp
    · unfold subtypeLoop
      rw [if_neg (by omega), if_pos (by simp)]
      simp
  | cons b st2 ih =>
    intro rest acc i fuel hbytes hi hf htail
    obtain ⟨f, rfl⟩ : ∃ f, fuel = f + 1 := ⟨fuel - 1, by omega⟩
    obtain ⟨hlb, hws, hb59⟩ := hbytes b (by simp)
    rw [List.cons_append]
    unfold subtypeLoop
    rw [if_neg (by simp at hi; omega),
      if_neg (by simp [hws, hb59]), hlb]
    rw [ih rest (acc ++ [b]) (i + 1) f
      (fun x hx => hbytes x (List.mem_cons_of_mem _ hx))
      (by simp at hi ⊢; omega) (by simp at hf ⊢; omega) htail]
    simp

theorem unquotedValueLoop_run (v : List Nat) :
    ∀ (rest acc : List Nat) (fuel : Nat),
      (∀ b ∈ v, tchar b = true) → v.length + 1 ≤ fuel →
      (rest = [] ∨ ∃ r, rest = 59 :: r) →
      unquotedValueLoop fuel acc (v ++ rest) = some (acc ++ v, rest) := by
  induction v with
  | nil =>
    intro rest acc fuel _ hf htail
    obtain ⟨f, rfl⟩ : ∃ f, fuel = f + 1 := ⟨fuel - 1, by omega⟩
    rw [List.nil_append]
    rcases htail with rfl | ⟨r, rfl⟩
    · simp [unquotedValueLoop]
    · unfold unquotedValueLoop
      rw [if_pos (by simp)]
      simp
  | cons b v2 ih =>
    intro rest acc fuel hbytes hf htail
    obtain ⟨f, rfl⟩ : ∃ f, fuel = f + 1 := ⟨fuel - 1, by omega⟩
    obtain ⟨hws, hb59, -⟩ := tchar_props b (hbytes b (by simp))
    rw [List.cons_append]
    unfold unquotedValueLoop
    rw [if_neg (by simp [hws, hb59])]
    rw [ih rest (acc ++ [b]) f
      (fun x hx => hbytes x (List.mem_cons_of_mem _ hx))
      (by simp at hf ⊢; omega) htail]
    simp

theorem quotedValueLoop_run (v : List Nat) :
    ∀ (rest acc : List Nat) (fuel : Nat),
      (∀ b ∈ v, b ≠ 34 ∧ b ≠ 92) → v.length + 1 ≤ fuel →
      quotedValueLoop fuel acc (v ++ 34 :: rest) = some (acc ++ v, rest) := by
  induction v with
  | nil =>
    intro rest acc fuel _ hf
    obtain ⟨f, rfl⟩ : ∃ f, fuel = f + 1 := ⟨fuel - 1, by omega⟩
    rw [List.nil_append]
    unfold quotedValueLoop
    rw [if_pos rfl]
    simp
  | cons b v2 ih =>
    intro rest acc fuel hbytes hf
    obtain ⟨f, rfl⟩ : ∃ f, fuel = f + 1 := ⟨fuel - 1, by omega⟩
    obtain ⟨hb34, hb92⟩ := hbytes b (by simp)
    rw [List.cons_append]
    unfold quotedValueLoop
    rw [if_neg hb34, if_neg hb92]
    rw [ih rest (acc ++ [b]) f
      (fun x hx => hbytes x (List.mem_cons_of_mem _ hx))
      (by simp at hf ⊢; omega)]
    simp

theorem parse_value_run (v rest : List Nat) (fuel : Nat)
    (htail : rest = [] ∨ ∃ r, rest = 59 :: r)
    (hq : ∀ b ∈ v, b ≠ 34 ∧ b ≠ 92)
    (hfuel : v.length + 2 ≤ fuel) :
    parse_value fuel ((if token v then v else [34] ++ v ++ [34]) ++ rest) =
      some (v, rest) := by
  by_cases htok : token v = true
  · have hall : ∀ b ∈ v, tchar b = true := by
      have h2 := htok
      simp only [token, Bool.and_eq_true, List.all_eq_true] at h2
      exact h2.2
    rw [if_pos htok]
    obtain ⟨c, v2, rfl⟩ : ∃ c v2, v = c :: v2 := by
      cases v with
      | nil => simp [token] at htok
      | cons c v2 => exact ⟨c, v2, rfl⟩
    have hc := tchar_props c (hall c (by simp))
    rw [List.cons_append]
    unfold parse_value
    dsimp only
    rw [if_neg hc.2.2]
    have hrun := unquotedValueLoop_run (c :: v2) rest [] fuel hall (by omega) htail
    rw [List.cons_append] at hrun
    rw [hrun]
    rfl
  · rw [if_neg htok]
    have hshape : ([34] ++ v ++ [34]) ++ rest = 34 :: (v ++ 34 :: rest) := by
      simp
    rw [hshape]
    unfold parse_value
    dsimp only
    rw [if_pos rfl]
    have hrun := quotedValueLoop_run v rest [] fuel hq (by omega)
    rw [hrun]
    rfl

theorem nameInner_run (k : List Nat) :
    ∀ (rest acc : List Nat) (p fuel : Nat),
      (∀ b ∈ k, lowerByte b = b ∧ is_whitespace b = false ∧ b ≠ 61) →
      p + k.length ≤ 128 → k.length + 1 ≤ fuel →
      nameInner fuel p acc (k ++ 61 :: rest) =
        some (.ok (acc ++ k, p + k.length, 61 :: rest)) := by
  induction k with
  | nil =>
    intro rest acc p fuel _ hp hf
    obtain ⟨f, rfl⟩ : ∃ f, fuel = f + 1 := ⟨fuel - 1, by omega⟩
    rw [List.nil_append]
    unfold nameInner
    rw [if_pos (by simp)]
    simp
  | cons b k2 ih =>
    intro rest acc p fuel hbytes hp hf
    obtain ⟨f, rfl⟩ : ∃ f, fuel = f + 1 := ⟨fuel - 1, by omega⟩
    obtain ⟨hlb, hws, hb61⟩ := hbytes b (by simp)
    rw [List.cons_append]
    unfold nameInner
    rw [if_neg (by simp [hws, hb61]), if_neg (by simp only [List.length_cons] at hp; omega), hlb]
    rw [ih rest (acc ++ [b]) (p + 1) f
      (fun x hx => hbytes x (List.mem_cons_of_mem _ hx))
      (by simp only [List.length_cons] at hp; omega)
      (by simp only [List.length_cons] at hf; omega)]
    simp only [Option.some.injEq, Except.ok.injEq, Prod.mk.injEq]
    exact ⟨by simp, by simp only [List.length_cons]; omega, trivial⟩

theorem extraWsLoop_run (b : Nat) (l extra : List Nat) (p fuel : Nat)
    (hb : is_whitespace b = false) (hf : 1 ≤ fuel) :
    extraWsLoop fuel p extra (b :: l) = some (extra, p, b :: l) := by
  obtain ⟨f, rfl⟩ : ∃ f, fuel = f + 1 := ⟨fuel - 1, by omega⟩
  unfold extraWsLoop
  rw [hb]
  simp

theorem nameLoop_run (k rest : List Nat) (fuel : Nat)
    (hk : ∀ b ∈ k, lowerByte b = b ∧ is_whitespace b = false ∧ b ≠ 61)
    (hlen : k.length ≤ 128) (hf : k.length + 2 ≤ fuel) :
    nameLoop fuel [] [] 0 (k ++ 61 :: rest) = some (.ok (k, rest)) := by
  obtain ⟨f, rfl⟩ : ∃ f, fuel = f + 1 := ⟨fuel - 1, by omega⟩
  unfold nameLoop
  rw [show (([] : List Nat) ++ []) = ([] : List Nat) from rfl]
  rw [nameInner_run k rest [] 0 f hk (by omega) (by omega)]
  dsimp only
  rw [extraWsLoop_run 61 rest [] (0 + k.length) f rfl (by omega)]
  dsimp only
  rw [if_pos rfl]
  simp

theorem skipToSemiLoop_nil (fuel : Nat) (hf : 1 ≤ fuel) :
    skipToSemiLoop fuel [] = some [] := by
  obtain ⟨f, rfl⟩ : ∃ f, fuel = f + 1 := ⟨fuel - 1, by omega⟩
  rfl

theorem skipToSemiLoop_semi (l : List Nat) (fuel : Nat) (hf : 1 ≤ fuel) :
    skipToSemiLoop fuel (59 :: l) = some (59 :: l) := by
  obtain ⟨f, rfl⟩ : ∃ f, fuel = f + 1 := ⟨fuel - 1, by omega⟩
  unfold skipToSemiLoop
  rw [if_pos rfl]

theorem renderParams_shape (ps : Params) :
    renderParams ps = [] ∨ ∃ r, renderParams ps = 59 :: r := by
  cases ps with
  | nil => exact Or.inl rfl
  | cons kv rest =>
    obtain ⟨k, v⟩ := kv
    exact Or.inr ⟨32 :: (k ++ [61] ++
      (if token v then v else [34] ++ v ++ [34])) ++ renderParams rest, by
        simp [renderParams, renderParam]⟩

theorem paramsLoop_run (ps : Params) :
    ∀ (acc : Params) (fuel : Nat),
      (∀ kv ∈ ps, pairSafe kv.1 kv.2 = true) →
      (renderParams ps).length + 2 ≤ fuel →
      paramsLoop fuel acc (renderParams ps) = some (.ok (insertAllP acc ps)) := by
  induction ps with
  | nil =>
    intro acc fuel _ hf
    obtain ⟨f, rfl⟩ : ∃ f, fuel = f + 1 := ⟨fuel - 1, by omega⟩
    unfold paramsLoop
    rw [show renderParams [] = [] from rfl, skipToSemiLoop_nil f (by omega)]
    rfl
  | cons kv rest ih =>
    intro acc fuel hsafe hf
    obtain ⟨k, v⟩ := kv
    obtain ⟨f, rfl⟩ : ∃ f, fuel = f + 1 := ⟨fuel - 1, by omega⟩
    have hpair := hsafe (k, v) (by simp)
    simp only [pairSafe, Bool.and_eq_true, List.all_eq_true, Bool.not_eq_true',
      decide_eq_true_eq, lowerFixed, beq_iff_eq] at hpair
    obtain ⟨⟨⟨⟨⟨hutfk, hutfv⟩, hlow⟩, hkb⟩, hklen⟩, hvb⟩ := hpair
    have hkbytes : ∀ b ∈ k, lowerByte b = b ∧ is_whitespace b = false ∧ b ≠ 61 :=
      fun b hb => ⟨hlow b hb, (hkb b hb).1, (hkb b hb).2⟩
    have hvbytes : ∀ b ∈ v, b ≠ 34 ∧ b ≠ 92 := hvb
    set V := (if token v then v else [34] ++ v ++ [34]) with hV
    have hshape : renderParams ((k, v) :: rest) =
        59 :: 32 :: (k ++ 61 :: (V ++ renderParams rest)) := by
      simp [renderParams, renderParam, hV, List.append_assoc]
    have hlenr : (renderParams ((k, v) :: rest)).length =
        3 + k.length + V.length + (renderParams rest).length := by
      rw [hshape]
      simp only [List.length_cons, List.length_append]
      omega
    have hVlen : v.length ≤ V.length := by
      rw [hV]
      by_cases htv : token v = true
      · rw [if_pos htv]
      · rw [if_neg htv]
        simp only [List.length_append, List.length_cons, List.length_nil]
        omega
    rw [hshape]
    unfold paramsLoop
    rw [skipToSemiLoop_semi _ f (by omega)]
    dsimp only
    have hheadnw : headNonWs (k ++ 61 :: (V ++ renderParams rest)) = true := by
      cases k with
      | nil => rfl
      | cons c k2 =>
        have := (hkbytes c (by simp)).2.1
        simp [headNonWs, this]
    have hkne : k ++ 61 :: (V ++ renderParams rest) ≠ [] := by
      cases k <;> simp
    obtain ⟨c0, l0, hcl⟩ : ∃ c0 l0, k ++ 61 :: (V ++ renderParams rest) = c0 :: l0 := by
      cases hk2 : k ++ 61 :: (V ++ renderParams rest) with
      | nil => exact absurd hk2 hkne
      | cons c0 l0 => exact ⟨c0, l0, rfl⟩
    have hc0 : is_whitespace c0 = false := by
      have := hheadnw
      rw [hcl] at this
      simpa only [headNonWs, Bool.not_eq_true'] using this
    rw [hcl, skipWsStrict_space c0 l0 f hc0 (by omega), ← hcl]
    dsimp only
    rw [nameLoop_run k (V ++ renderParams rest) f hkbytes hklen
      (by rw [hlenr] at hf; omega)]
    dsimp only
    have hVne : V ++ renderParams rest ≠ [] := by
      rw [hV]
      by_cases htv : token v = true
      · rw [if_pos htv]
        cases v with
        | nil => simp [token] at htv
        | cons c v2 => simp
      · rw [if_neg htv]
        simp
    have hVhead : headNonWs (V ++ renderParams rest) = true := by
      rw [hV]
      by_cases htv : token v = true
      · rw [if_pos htv]
        cases v with
        | nil => simp [token] at htv
        | cons c v2 =>
          have hall := htv
          simp only [token, Bool.and_eq_true, List.all_eq_true] at hall
          have := (tchar_props c (hall.2 c (by simp))).1
          simp [headNonWs, this]
      · rw [if_neg htv]
        rfl
    rw [skipWsStrict_run (V ++ renderParams rest) f hVne hVhead (by omega)]
    dsimp only
    have hpv := parse_value_run v (renderParams rest) f (renderParams_shape rest)
      hvbytes (by rw [hlenr] at hf; omega)
    rw [← hV] at hpv
    rw [hpv]
    dsimp only
    rw [ih (insertP k v acc) f
      (fun kv hkv => hsafe kv (List.mem_cons_of_mem _ hkv))
      (by rw [hlenr] at hf; omega)]
    rfl

/-! ## Rendering lemmas for the round-trip proof -/

theorem typeOfBytes_tyRender (m : MediaType) (h : typeSafe m.type_ = true) :
    typeOfBytes (tyRender m) = .ok m.type_ := by
  obtain ⟨t0, s0, p0⟩ := m
  cases t0 with
  | none => rfl
  | some t =>
    cases t with
    | Text => rfl
    | Image => rfl
    | Audio => rfl
    | Video => rfl
    | Application => rfl
    | Multipart => rfl
    | Message => rfl
    | Model => rfl
    | Unregistered u =>
      simp only [typeSafe, Bool.and_eq_true, decide_eq_true_eq] at h
      obtain ⟨⟨⟨⟨⟨⟨⟨⟨⟨⟨⟨⟨⟨hutf, hlow⟩, h47⟩, hhd⟩, hlen⟩, hstar⟩, htext⟩, himg⟩,
        haud⟩, hvid⟩, happ⟩, hmul⟩, hmsg⟩, hmod⟩ := h
      show typeOfBytes u = Except.ok (some (TType.Unregistered u))
      unfold typeOfBytes
      rw [if_neg hstar, if_neg htext, if_neg himg, if_neg haud, if_neg hvid,
        if_neg happ, if_neg hmul, if_neg hmsg, if_neg hmod, if_pos hutf]

theorem structureSubtype_stok (tr : Tree) (sub : List Nat)
    (sufOpt : Option (List Nat)) (h : subSafe (some (tr, sub, sufOpt)) = true) :
    structureSubtype (stokOf tr sub sufOpt) = .ok (some (tr, sub, sufOpt)) := by
  simp only [subSafe, Bool.and_eq_true, decide_eq_true_eq] at h
  obtain ⟨⟨⟨⟨⟨⟨hutf, hlow⟩, hbytes⟩, hlen⟩, hstar⟩, hsuf⟩, htree⟩ := h
  unfold structureSubtype
  rw [if_neg hstar, if_pos hutf]
  cases sufOpt with
  | some suf =>
    have h43 : ∀ b ∈ suf, b ≠ 43 := by
      simpa [List.all_eq_true] using hsuf
    have hsplit : stokOf tr sub (some suf) = (displayTree tr ++ sub) ++ 43 :: suf := by
      simp [stokOf, List.append_assoc]
    rw [hsplit, rsplitPlus_append (displayTree tr ++ sub) suf h43]
    dsimp only
    cases tr with
    | Standards =>
      have h46 : ∀ b ∈ sub, b ≠ 46 := by
        simpa [List.all_eq_true] using htree
      simp only [displayTree, List.nil_append]
      rw [(splitDot_none_iff sub).mpr h46]
    | Vendor =>
      have hv : (displayTree Tree.Vendor ++ sub) = bVnd ++ 46 :: sub := by
        simp [displayTree, List.append_assoc]
      rw [hv, splitDot_append bVnd sub (by decide)]
      rfl
    | Personal =>
      have hv : (displayTree Tree.Personal ++ sub) = bPrs ++ 46 :: sub := by
        simp [displayTree, List.append_assoc]
      rw [hv, splitDot_append bPrs sub (by decide)]
      rfl
    | Private =>
      have hv : (displayTree Tree.Private ++ sub) = bXf ++ 46 :: sub := by
        simp [displayTree, List.append_assoc]
      rw [hv, splitDot_append bXf sub (by decide)]
      rfl
    | Unregistered fc =>
      simp only [Bool.and_eq_true, decide_eq_true_eq] at htree
      obtain ⟨⟨⟨h46f, hfvnd⟩, hfprs⟩, hfx⟩ := htree
      have h46f2 : ∀ b ∈ fc, b ≠ 46 := by
        simpa [List.all_eq_true] using h46f
      have hv : (displayTree (Tree.Unregistered fc) ++ sub) = fc ++ 46 :: sub := by
        simp [displayTree, List.append_assoc]
      rw [hv, splitDot_append fc sub h46f2]
      dsimp only
      unfold facetTree
      rw [if_neg hfvnd, if_neg hfprs, if_neg hfx]
  | none =>
    have h43 : ∀ b ∈ stokOf tr sub none, b ≠ 43 := by
      simpa [List.all_eq_true] using hsuf
    rw [(rsplitPlus_none_iff _).mpr h43]
    dsimp only
    have hstok : stokOf tr sub none = displayTree tr ++ sub := by
      simp [stokOf]
    cases tr with
    | Standards =>
      have h46 : ∀ b ∈ sub, b ≠ 46 := by
        simpa [List.all_eq_true] using htree
      rw [hstok]
      simp only [displayTree, List.nil_append]
      rw [(splitDot_none_iff sub).mpr h46]
    | Vendor =>
      have hv : stokOf Tree.Vendor sub none = bVnd ++ 46 :: sub := by
        rw [hstok]
        simp [displayTree, List.append_assoc]
      rw [hv, splitDot_append bVnd sub (by decide)]
      rfl
    | Personal =>
      have hv : stokOf Tree.Personal sub none = bPrs ++ 46 :: sub := by
        rw [hstok]
        simp [displayTree, List.append_assoc]
      rw [hv, splitDot_append bPrs sub (by decide)]
      rfl
    | Private =>
      have hv : stokOf Tree.Private sub none = bXf ++ 46 :: sub := by
        rw [hstok]
        simp [displayTree, List.append_assoc]
      rw [hv, splitDot_append bXf sub (by decide)]
      rfl
    | Unregistered fc =>
      simp only [Bool.and_eq_true, decide_eq_true_eq] at htree
      obtain ⟨⟨⟨h46f, hfvnd⟩, hfprs⟩, hfx⟩ := htree
      have h46f2 : ∀ b ∈ fc, b ≠ 46 := by
        simpa [List.all_eq_true] using h46f
      have hv : stokOf (Tree.Unregistered fc) sub none = fc ++ 46 :: sub := by
        rw [hstok]
        simp [displayTree, List.append_assoc]
      rw [hv, splitDot_append fc sub h46f2]
      dsimp only
      unfold facetTree
      rw [if_neg hfvnd, if_neg hfprs, if_neg hfx]

theorem structureSubtype_stRender (m : MediaType) (h : rtSafe m = true) :
    structureSubtype (stRender m) = .ok m.subtype := by
  simp only [rtSafe, Bool.and_eq_true] at h
  obtain ⟨⟨⟨⟨htype, hsub⟩, hsorted⟩, hpairs⟩, hwild⟩ := h
  obtain ⟨t0, s0, p0⟩ := m
  cases t0 with
  | none =>
    have hs0 : s0 = none := by
      simpa [Option.isNone_iff_eq_none] using hwild
    subst hs0
    rfl
  | some t =>
    cases s0 with
    | none => rfl
    | some tsu =>
      obtain ⟨tr, sub, suf⟩ := tsu
      exact structureSubtype_stok tr sub suf hsub

theorem display_decomp (m : MediaType) :
    display m = tyRender m ++ 47 :: (stRender m ++ renderParams (sortP m.parameters)) := by
  obtain ⟨t0, s0, p0⟩ := m
  cases t0 with
  | none => simp [display, tyRender, stRender, bStar]
  | some t =>
    cases s0 with
    | none => simp [display, tyRender, stRender, bStar, List.append_assoc]
    | some tsu =>
      obtain ⟨tr, sub, suf⟩ := tsu
      cases suf <;>
        simp [display, tyRender, stRender, stokOf, List.append_assoc]

theorem headNonWs_append47 (l1 l2 : List Nat) (h : headNonWs l1 = true) :
    headNonWs (l1 ++ 47 :: l2) = true := by
  cases l1 with
  | nil => rfl
  | cons b r => exact h

theorem tyRender_headNonWs (m : MediaType) (h : typeSafe m.type_ = true) :
    headNonWs (tyRender m) = true := by
  obtain ⟨t0, s0, p0⟩ := m
  cases t0 with
  | none => rfl
  | some t =>
    cases t with
    | Unregistered u =>
      simp only [typeSafe, Bool.and_eq_true, decide_eq_true_eq] at h
      exact h.1.1.1.1.1.1.1.1.1.1.2
    | Text => rfl
    | Image => rfl
    | Audio => rfl
    | Video => rfl
    | Application => rfl
    | Multipart => rfl
    | Message => rfl
    | Model => rfl

theorem tyRender_bytes (m : MediaType) (h : typeSafe m.type_ = true) :
    ∀ b ∈ tyRender m, lowerByte b = b ∧ b ≠ 47 := by
  obtain ⟨t0, s0, p0⟩ := m
  cases t0 with
  | none => exact (by decide : ∀ b ∈ bStar, lowerByte b = b ∧ b ≠ 47)
  | some t =>
    cases t with
    | Unregistered u =>
      simp only [typeSafe, Bool.and_eq_true, decide_eq_true_eq] at h
      intro b hb
      refine ⟨?_, ?_⟩
      · have := h.1.1.1.1.1.1.1.1.1.1.1.1.2
        simp only [lowerFixed, List.all_eq_true, beq_iff_eq] at this
        exact this b hb
      · have := h.1.1.1.1.1.1.1.1.1.1.1.2
        simp only [List.all_eq_true, decide_eq_true_eq] at this
        exact this b hb
    | Text => exact (by decide : ∀ b ∈ bText, lowerByte b = b ∧ b ≠ 47)
    | Image => exact (by decide : ∀ b ∈ bImage, lowerByte b = b ∧ b ≠ 47)
    | Audio => exact (by decide : ∀ b ∈ bAudio, lowerByte b = b ∧ b ≠ 47)
    | Video => exact (by decide : ∀ b ∈ bVideo, lowerByte b = b ∧ b ≠ 47)
    | Application => exact (by decide : ∀ b ∈ bApplication, lowerByte b = b ∧ b ≠ 47)
    | Multipart => exact (by decide : ∀ b ∈ bMultipart, lowerByte b = b ∧ b ≠ 47)
    | Message => exact (by decide : ∀ b ∈ bMessage, lowerByte b = b ∧ b ≠ 47)
    | Model => exact (by decide : ∀ b ∈ bModel, lowerByte b = b ∧ b ≠ 47)

theorem tyRender_len (m : MediaType) (h : typeSafe m.type_ = true) :
    (tyRender m).length ≤ 127 := by
  obtain ⟨t0, s0, p0⟩ := m
  cases t0 with
  | none => exact (by decide : bStar.length ≤ 127)
  | some t =>
    cases t with
    | Unregistered u =>
      simp only [typeSafe, Bool.and_eq_true, decide_eq_true_eq] at h
      exact h.1.1.1.1.1.1.1.1.1.2
    | Text => exact (by decide : bText.length ≤ 127)
    | Image => exact (by decide : bImage.length ≤ 127)
    | Audio => exact (by decide : bAudio.length ≤ 127)
    | Video => exact (by decide : bVideo.length ≤ 127)
    | Application => exact (by decide : bApplication.length ≤ 127)
    | Multipart => exact (by decide : bMultipart.length ≤ 127)
    | Message => exact (by decide : bMessage.length ≤ 127)
    | Model => exact (by decide : bModel.length ≤ 127)

theorem stRender_bytes (m : MediaType) (h : rtSafe m = true) :
    ∀ b ∈ stRender m, lowerByte b = b ∧ is_whitespace b = false ∧ b ≠ 59 := by
  simp only [rtSafe, Bool.and_eq_true] at h
  obtain ⟨⟨⟨⟨htype, hsub⟩, hsorted⟩, hpairs⟩, hwild⟩ := h
  obtain ⟨t0, s0, p0⟩ := m
  cases t0 with
  | none => exact (by decide : ∀ b ∈ bStar, lowerByte b = b ∧ is_whitespace b = false ∧ b ≠ 59)
  | some t =>
    cases s0 with
    | none => exact (by decide : ∀ b ∈ bStar, lowerByte b = b ∧ is_whitespace b = false ∧ b ≠ 59)
    | some tsu =>
      obtain ⟨tr, sub, suf⟩ := tsu
      simp only [subSafe, Bool.and_eq_true, decide_eq_true_eq] at hsub
      intro b hb
      refine ⟨?_, ?_⟩
      · have := hsub.1.1.1.1.1.2
        simp only [lowerFixed, List.all_eq_true, beq_iff_eq] at this
        exact this b hb
      · have := hsub.1.1.1.1.2
        simp only [List.all_eq_true, Bool.and_eq_true, Bool.not_eq_true',
          decide_eq_true_eq] at this
        exact this b hb

theorem stRender_len (m : MediaType) (h : rtSafe m = true) :
    (stRender m).length ≤ 127 := by
  simp only [rtSafe, Bool.and_eq_true] at h
  obtain ⟨⟨⟨⟨htype, hsub⟩, hsorted⟩, hpairs⟩, hwild⟩ := h
  obtain ⟨t0, s0, p0⟩ := m
  cases t0 with
  | none => exact (by decide : bStar.length ≤ 127)
  | some t =>
    cases s0 with
    | none => exact (by decide : bStar.length ≤ 127)
    | some tsu =>
      obtain ⟨tr, sub, suf⟩ := tsu
      simp only [subSafe, Bool.and_eq_true, decide_eq_true_eq] at hsub
      exact hsub.1.1.1.2

/-! ## Parser soundness: every `fromStr` output satisfies the structural
invariants of `rtSafe` -/

theorem lowerByte_fix (b : Nat) : lowerByte (lowerByte b) = lowerByte b := by
  unfold lowerByte
  split_ifs <;> omega

theorem lowerByte_eq_low (b c : Nat) (hc : ¬ (97 ≤ c ∧ c ≤ 122))
    (h : lowerByte b = c) : b = c := by
  unfold lowerByte at h
  split_ifs at h <;> omega

theorem is_whitespace_lowerByte_eq (b : Nat)
    (h : is_whitespace (lowerByte b) = true) : is_whitespace b = true := by
  simp only [is_whitespace, Bool.or_eq_true, beq_iff_eq] at h ⊢
  have h2 : lowerByte b = 32 ∨ lowerByte b = 10 ∨ lowerByte b = 13 ∨
      lowerByte b = 9 := by tauto
  rcases h2 with h2 | h2 | h2 | h2
  · have := lowerByte_eq_low b 32 (by omega) h2
    tauto
  · have := lowerByte_eq_low b 10 (by omega) h2
    tauto
  · have := lowerByte_eq_low b 13 (by omega) h2
    tauto
  · have := lowerByte_eq_low b 9 (by omega) h2
    tauto

theorem ws_byte_props (b : Nat) (h : is_whitespace b = true) :
    lowerByte b = b ∧ b ≠ 61 := by
  simp only [is_whitespace, Bool.or_eq_true, beq_iff_eq] at h
  have hb : b = 32 ∨ b = 10 ∨ b = 13 ∨ b = 9 := by tauto
  constructor
  · unfold lowerByte
    rw [if_neg (by omega)]
  · omega

theorem skipWsStrict_sound (fuel : Nat) :
    ∀ l l1, skipWsStrict fuel l = some l1 →
      ∃ b r, l1 = b :: r ∧ is_whitespace b = false := by
  induction fuel with
  | zero => intro l l1 h; simp [skipWsStrict] at h
  | succ f ih =>
    intro l l1 h
    cases l with
    | nil => simp [skipWsStrict] at h
    | cons b r =>
      unfold skipWsStrict at h
      by_cases hb : is_whitespace b = true
      · rw [if_pos hb] at h
        exact ih r l1 h
      · rw [if_neg hb] at h
        exact ⟨b, r, (Option.some.inj h).symm, by simpa using hb⟩

theorem typeLoop_sound (fuel : Nat) :
    ∀ i acc l ty rest, typeLoop fuel i acc l = some (.ok (ty, rest)) →
      ∃ t, ty = acc ++ t ∧ (∀ b ∈ t, lowerByte b = b ∧ b ≠ 47) ∧
        i + t.length ≤ 127 ∧
        (t = [] ∨ ∃ b0 r0, l = b0 :: r0 ∧ ∃ t2, t = lowerByte b0 :: t2) := by
  induction fuel with
  | zero => intro i acc l ty rest h; simp [typeLoop] at h
  | succ f ih =>
    intro i acc l ty rest h
    cases l with
    | nil =>
      unfold typeLoop at h
      split_ifs at h <;> simp at h
    | cons b r =>
      unfold typeLoop at h
      by_cases hi : i > 127
      · rw [if_pos hi] at h
        simp at h
      · rw [if_neg hi] at h
        by_cases hb : b = 47
        · rw [if_pos hb] at h
          simp only [Option.some.injEq, Except.ok.injEq, Prod.mk.injEq] at h
          exact ⟨[], by rw [← h.1]; simp, by simp,
            by simp only [List.length_nil]; omega, Or.inl rfl⟩
        · rw [if_neg hb] at h
          obtain ⟨t, hty, htb, hlen, -⟩ := ih (i + 1) (acc ++ [lowerByte b]) r ty rest h
          refine ⟨lowerByte b :: t, by rw [hty]; simp, ?_,
            by simp only [List.length_cons]; omega,
            Or.inr ⟨b, r, rfl, t, rfl⟩⟩
          intro x hx
          rcases List.mem_cons.mp hx with rfl | hx
          · exact ⟨lowerByte_fix b,
              fun hc => hb (lowerByte_eq_low b 47 (by omega) hc)⟩
          · exact htb x hx

theorem subtypeLoop_sound (fuel : Nat) :
    ∀ u acc l st rest, subtypeLoop fuel u acc l = some (.ok (st, rest)) →
      ∃ t, st = acc ++ t ∧
        (∀ b ∈ t, lowerByte b = b ∧ is_whitespace b = false ∧ b ≠ 59) ∧
        u + t.length ≤ 127 := by
  induction fuel with
  | zero => intro u acc l st rest h; simp [subtypeLoop] at h
  | succ f ih =>
    intro u acc l st rest h
    cases l with
    | nil =>
      unfold subtypeLoop at h
      by_cases hu : u > 127
      · rw [if_pos hu] at h
        simp at h
      · rw [if_neg hu] at h
        simp only [Option.some.injEq, Except.ok.injEq, Prod.mk.injEq] at h
        exact ⟨[], by rw [← h.1]; simp, by simp,
          by simp only [List.length_nil]; omega⟩
    | cons b r =>
      unfold subtypeLoop at h
      by_cases hu : u > 127
      · rw [if_pos hu] at h
        simp at h
      · rw [if_neg hu] at h
        by_cases hb : (is_whitespace b || b = 59) = true
        · rw [if_pos hb] at h
          simp only [Option.some.injEq, Except.ok.injEq, Prod.mk.injEq] at h
          exact ⟨[], by rw [← h.1]; simp, by simp,
            by simp only [List.length_nil]; omega⟩
        · rw [if_neg hb] at h
          simp only [Bool.or_eq_true, decide_eq_true_eq, not_or,
            Bool.not_eq_true] at hb
          obtain ⟨hbws, hb59⟩ := hb
          obtain ⟨t, hst, htb, hlen⟩ := ih (u + 1) (acc ++ [lowerByte b]) r st rest h
          refine ⟨lowerByte b :: t, by rw [hst]; simp, ?_,
            by simp only [List.length_cons]; omega⟩
          intro x hx
          rcases List.mem_cons.mp hx with rfl | hx
          · refine ⟨lowerByte_fix b, ?_, ?_⟩
            · cases hlb : is_whitespace (lowerByte b) with
              | false => rfl
              | true => rw [is_whitespace_lowerByte_eq b hlb] at hbws; exact hbws
            · exact fun hc => hb59 (lowerByte_eq_low b 59 (by omega) hc)
          · exact htb x hx

theorem nameInner_sound (fuel : Nat) :
    ∀ p name l name2 p2 l2,
      nameInner fuel p name l = some (.ok (name2, p2, l2)) →
      ∃ t, name2 = name ++ t ∧
        (∀ b ∈ t, lowerByte b = b ∧ is_whitespace b = false ∧ b ≠ 61) ∧
        p2 = p + t.length ∧ (t = [] ∨ p + t.length ≤ 128) ∧
        ∃ c rc, l2 = c :: rc ∧ (is_whitespace c = true ∨ c = 61) := by
  induction fuel with
  | zero => intro p name l name2 p2 l2 h; simp [nameInner] at h
  | succ f ih =>
    intro p name l name2 p2 l2 h
    cases l with
    | nil => simp [nameInner] at h
    | cons b r =>
      unfold nameInner at h
      by_cases hb : (is_whitespace b || b = 61) = true
      · rw [if_pos hb] at h
        simp only [Option.some.injEq, Except.ok.injEq, Prod.mk.injEq] at h
        obtain ⟨h1, h2, h3⟩ := h
        refine ⟨[], by rw [← h1]; simp, by simp,
          by rw [← h2]; simp, Or.inl rfl, b, r, h3.symm, ?_⟩
        simpa only [Bool.or_eq_true, decide_eq_true_eq] using hb
      · rw [if_neg hb] at h
        by_cases hp : p > 127
        · rw [if_pos hp] at h
          simp at h
        · rw [if_neg hp] at h
          simp only [Bool.or_eq_true, decide_eq_true_eq, not_or,
            Bool.not_eq_true] at hb
          obtain ⟨hbws, hb61⟩ := hb
          obtain ⟨t, hn2, htb, hp2, hbound, hcr⟩ :=
            ih (p + 1) (name ++ [lowerByte b]) r name2 p2 l2 h
          refine ⟨lowerByte b :: t, by rw [hn2]; simp, ?_,
            by rw [hp2]; simp only [List.length_cons]; omega, ?_, hcr⟩
          · intro x hx
            rcases List.mem_cons.mp hx with rfl | hx
            · refine ⟨lowerByte_fix b, ?_, ?_⟩
              · cases hlb : is_whitespace (lowerByte b) with
                | false => rfl
                | true => rw [is_whitespace_lowerByte_eq b hlb] at hbws; exact hbws
              · exact fun hc => hb61 (lowerByte_eq_low b 61 (by omega) hc)
            · exact htb x hx
          · refine Or.inr ?_
            rcases hbound with rfl | hbound
            · simp only [List.length_cons, List.length_nil]
              omega
            · simp only [List.length_cons]
              omega

theorem extraWsLoop_sound (fuel : Nat) :
    ∀ p extra l extra2 p2 l2,
      extraWsLoop fuel p extra l = some (extra2, p2, l2) →
      ∃ t, extra2 = extra ++ t ∧ (∀ b ∈ t, is_whitespace b = true) ∧
        (∃ c rc, l2 = c :: rc ∧ is_whitespace c = false) ∧
        (∀ c rc, l = c :: rc → is_whitespace c = true → t ≠ []) := by
  induction fuel with
  | zero => intro p extra l extra2 p2 l2 h; simp [extraWsLoop] at h
  | succ f ih =>
    intro p extra l extra2 p2 l2 h
    cases l with
    | nil => simp [extraWsLoop] at h
    | cons b r =>
      unfold extraWsLoop at h
      by_cases hb : is_whitespace b = true
      · rw [if_pos hb] at h
        obtain ⟨t, he2, htws, hl2, -⟩ :=
          ih (p + 1) (extra ++ [b]) r extra2 p2 l2 h
        refine ⟨b :: t, by rw [he2]; simp, ?_, hl2, fun c rc _ _ => by simp⟩
        intro x hx
        rcases List.mem_cons.mp hx with rfl | hx
        · exact hb
        · exact htws x hx
      · rw [if_neg hb] at h
        simp only [Option.some.injEq, Prod.mk.injEq] at h
        obtain ⟨h1, h2, h3⟩ := h
        refine ⟨[], by rw [← h1]; simp, by simp,
          ⟨b, r, h3.symm, by simpa using hb⟩, ?_⟩
        intro c rc hcr hws
        have hbc := (List.cons.inj hcr).1
        rw [hbc] at hb
        exact absurd hws hb

theorem nameLoop_sound (fuel : Nat) :
    ∀ name extra p l k rest,
      nameLoop fuel name extra p l = some (.ok (k, rest)) →
      (∀ b ∈ name, lowerByte b = b ∧ b ≠ 61) →
      (∀ b ∈ extra, is_whitespace b = true ∧ lowerByte b = b ∧ b ≠ 61) →
      (∀ b ∈ k, lowerByte b = b ∧ b ≠ 61) ∧
        (∃ t0, k = name ++ extra ++ t0) ∧
        ((∀ b ∈ k, is_whitespace b = false) →
          ∃ t, k = name ++ t ∧ (t = [] ∨ p + t.length ≤ 128)) := by
  induction fuel with
  | zero => intro name extra p l k rest h _ _; simp [nameLoop] at h
  | succ f ih =>
    intro name extra p l k rest h hname hextra
    unfold nameLoop at h
    cases hni : nameInner f p (name ++ extra) l with
    | none => rw [hni] at h; simp at h
    | some r =>
      rw [hni] at h
      cases r with
      | error e => simp at h
      | ok r2 =>
        obtain ⟨name2, p2, l2⟩ := r2
        dsimp only at h
        obtain ⟨t1, hn2, ht1, hp2, hbound1, c, rc, hl2, hcws⟩ :=
          nameInner_sound f p (name ++ extra) l name2 p2 l2 hni
        cases hew : extraWsLoop f p2 extra l2 with
        | none => rw [hew] at h; simp at h
        | some r3 =>
          rw [hew] at h
          obtain ⟨extra2, p3, l3⟩ := r3
          dsimp only at h
          obtain ⟨t2, he2, ht2, ⟨c2, rc2, hl3, hc2⟩, hgrow⟩ :=
            extraWsLoop_sound f p2 extra l2 extra2 p3 l3 hew
          rw [hl3] at h
          dsimp only at h
          have hname2 : ∀ b ∈ name2, lowerByte b = b ∧ b ≠ 61 := by
            intro b hb
            rw [hn2] at hb
            rcases List.mem_append.mp hb with hb | hb
            · rcases List.mem_append.mp hb with hb | hb
              · exact hname b hb
              · exact ⟨(hextra b hb).2.1, (hextra b hb).2.2⟩
            · exact ⟨(ht1 b hb).1, (ht1 b hb).2.2⟩
          by_cases hc61 : c2 = 61
          · rw [if_pos hc61] at h
            simp only [Option.some.injEq, Except.ok.injEq, Prod.mk.injEq] at h
            obtain ⟨hk, -⟩ := h
            subst hk
            refine ⟨hname2, ⟨t1, by simp [hn2]⟩, ?_⟩
            intro hwsfree
            have hextranil : extra = [] := by
              cases hex : extra with
              | nil => rfl
              | cons e es =>
                have hin : e ∈ name2 := by
                  rw [hn2, hex]
                  simp
                have hf := hwsfree e hin
                have ht := (hextra e (by rw [hex]; simp)).1
                rw [hf] at ht
                exact absurd ht (by simp)
            refine ⟨t1, ?_, hbound1⟩
            rw [hn2, hextranil]
            simp
          · rw [if_neg hc61] at h
            have hf1 : extraWsLoop f p2 extra l2 ≠ none := by
              rw [hew]
              simp
            have ht2ne : t2 ≠ [] := by
              rcases hcws with hwsc | rfl
              · exact hgrow c rc hl2 hwsc
              · -- nameInner broke at `=`: extraWsLoop consumed nothing
                have hfpos : 1 ≤ f := by
                  cases f with
                  | zero => rw [show extraWsLoop 0 p2 extra l2 = none from rfl] at hew; simp at hew
                  | succ f2 => omega
                have hrun := extraWsLoop_run 61 rc extra p2 f rfl hfpos
                rw [hl2] at hew
                rw [hrun] at hew
                simp only [Option.some.injEq, Prod.mk.injEq] at hew
                obtain ⟨-, -, hl3eq⟩ := hew
                rw [← hl3eq] at hl3
                exact absurd (List.cons.inj hl3).1.symm hc61
            have hextra2 : ∀ b ∈ extra2, is_whitespace b = true ∧ lowerByte b = b ∧ b ≠ 61 := by
              intro b hb
              rw [he2] at hb
              rcases List.mem_append.mp hb with hb | hb
              · exact hextra b hb
              · have hws := ht2 b hb
                exact ⟨hws, (ws_byte_props b hws).1, (ws_byte_props b hws).2⟩
            obtain ⟨hkbytes, ⟨t0, hk0⟩, -⟩ :=
              ih name2 extra2 p3 (c2 :: rc2) k rest h hname2 hextra2
            refine ⟨hkbytes, ?_, ?_⟩
            · refine ⟨t1 ++ extra2 ++ t0, ?_⟩
              rw [hk0, hn2]
              simp
            · intro hwsfree
              obtain ⟨w, ws2, hw⟩ : ∃ w ws2, t2 = w :: ws2 := by
                cases t2 with
                | nil => exact absurd rfl ht2ne
                | cons w ws2 => exact ⟨w, ws2, rfl⟩
              have hwk : w ∈ k := by
                rw [hk0, he2, hw]
                simp
              have hf := hwsfree w hwk
              have ht := ht2 w (by rw [hw]; simp)
              rw [hf] at ht
              exact absurd ht (by simp)

theorem paramsLoop_sound (fuel : Nat) :
    ∀ acc l ps, paramsLoop fuel acc l = some (.ok ps) →
      sortedKeys acc = true → (∀ kv ∈ acc, KeyInv kv.1) →
      sortedKeys ps = true ∧ ∀ kv ∈ ps, KeyInv kv.1 := by
  induction fuel with
  | zero => intro acc l ps h _ _; simp [paramsLoop] at h
  | succ f ih =>
    intro acc l ps h hsort hinv
    unfold paramsLoop at h
    cases hsk : skipToSemiLoop f l with
    | none => rw [hsk] at h; simp at h
    | some l1 =>
      rw [hsk] at h
      cases l1 with
      | nil =>
        dsimp only at h
        simp only [Option.some.injEq, Except.ok.injEq] at h
        subst h
        exact ⟨hsort, hinv⟩
      | cons b l2 =>
        dsimp only at h
        cases hsw : skipWsStrict f l2 with
        | none => rw [hsw] at h; simp at h
        | some l3 =>
          rw [hsw] at h
          dsimp only at h
          cases hnl : nameLoop f [] [] 0 l3 with
          | none => rw [hnl] at h; simp at h
          | some r =>
            rw [hnl] at h
            cases r with
            | error e => simp at h
            | ok r2 =>
              obtain ⟨name, l4⟩ := r2
              dsimp only at h
              cases hsw2 : skipWsStrict f l4 with
              | none => rw [hsw2] at h; simp at h
              | some l5 =>
                rw [hsw2] at h
                dsimp only at h
                cases hpv : parse_value f l5 with
                | none => rw [hpv] at h; simp at h
                | some vr =>
                  rw [hpv] at h
                  obtain ⟨value, l6⟩ := vr
                  dsimp only at h
                  obtain ⟨hnb, -, hnlen⟩ :=
                    nameLoop_sound f [] [] 0 l3 name l4 hnl (by simp) (by simp)
                  have hkeyinv : KeyInv name := by
                    refine ⟨hnb, ?_⟩
                    intro hwf
                    obtain ⟨t, hnt, hb2⟩ := hnlen hwf
                    rw [hnt]
                    rcases hb2 with rfl | hb2
                    · simp
                    · simp only [List.nil_append]
                      omega
                  exact ih (insertP name value acc) l6 ps h
                    (insertP_sortedKeys name value acc hsort)
                    (fun kv hkv => by
                      rcases mem_insertP name value acc kv hkv with rfl | hkv2
                      · exact hkeyinv
                      · exact hinv kv hkv2)

theorem convertParams_sound (ps : Params) :
    ∀ acc qs, convertParams acc ps = .ok qs →
      sortedKeys acc = true →
      (∀ kv ∈ acc, KeyInv kv.1 ∧ utf8Valid kv.1 = true ∧ utf8Valid kv.2 = true) →
      (∀ kv ∈ ps, KeyInv kv.1) →
      sortedKeys qs = true ∧
        ∀ kv ∈ qs, KeyInv kv.1 ∧ utf8Valid kv.1 = true ∧ utf8Valid kv.2 = true := by
  induction ps with
  | nil =>
    intro acc qs h hs ha _
    simp only [convertParams, Except.ok.injEq] at h
    subst h
    exact ⟨hs, ha⟩
  | cons kv rest ih =>
    intro acc qs h hs ha hp
    obtain ⟨k, v⟩ := kv
    unfold convertParams at h
    by_cases hu : (utf8Valid k && utf8Valid v) = true
    · rw [if_pos hu] at h
      simp only [Bool.and_eq_true] at hu
      exact ih (insertP k v acc) qs h (insertP_sortedKeys k v acc hs)
        (fun kv2 hkv2 => by
          rcases mem_insertP k v acc kv2 hkv2 with rfl | hkv3
          · exact ⟨hp (k, v) (by simp), hu.1, hu.2⟩
          · exact ha kv2 hkv3)
        (fun kv2 hkv2 => hp kv2 (List.mem_cons_of_mem _ hkv2))
    · rw [if_neg hu] at h
      simp at h

theorem displayTree_facetTree (f : List Nat) :
    displayTree (facetTree f) = f ++ [46] := by
  unfold facetTree
  split_ifs with h1 h2 h3
  · rw [h1]
    rfl
  · rw [h2]
    rfl
  · rw [h3]
    rfl
  · rfl

theorem subSafe_build (tr : Tree) (sub : List Nat) (sufOpt : Option (List Nat))
    (st : List Nat) (hstok : stokOf tr sub sufOpt = st)
    (hu : utf8Valid st = true)
    (hb : ∀ b ∈ st, lowerByte b = b ∧ is_whitespace b = false ∧ b ≠ 59)
    (hlen : st.length ≤ 127) (hstar : st ≠ bStar)
    (hsufs : ∀ s, sufOpt = some s → ∀ b ∈ s, b ≠ 43)
    (hsufn : sufOpt = none → ∀ b ∈ st, b ≠ 43)
    (htru : ∀ f, tr = .Unregistered f →
      (∀ b ∈ f, b ≠ 46) ∧ f ≠ bVnd ∧ f ≠ bPrs ∧ f ≠ bXf)
    (htrs : tr = .Standards → ∀ b ∈ sub, b ≠ 46) :
    subSafe (some (tr, sub, sufOpt)) = true := by
  simp only [subSafe]
  rw [hstok]
  simp only [Bool.and_eq_true]
  refine ⟨⟨⟨⟨⟨⟨hu, ?_⟩, ?_⟩, ?_⟩, ?_⟩, ?_⟩, ?_⟩
  · simp only [lowerFixed, List.all_eq_true, beq_iff_eq]
    intro b hbm
    exact (hb b hbm).1
  · simp only [List.all_eq_true, Bool.and_eq_true, Bool.not_eq_true',
      decide_eq_true_eq]
    intro b hbm
    exact ⟨(hb b hbm).2.1, (hb b hbm).2.2⟩
  · simpa using hlen
  · simpa using hstar
  · cases sufOpt with
    | some s =>
      simp only [List.all_eq_true, decide_eq_true_eq]
      exact hsufs s rfl
    | none =>
      simp only [List.all_eq_true, decide_eq_true_eq]
      exact hsufn rfl
  · cases tr with
    | Standards =>
      simp only [List.all_eq_true, decide_eq_true_eq]
      exact htrs rfl
    | Vendor => rfl
    | Personal => rfl
    | Private => rfl
    | Unregistered fc =>
      obtain ⟨h46, hv, hp2, hx⟩ := htru fc rfl
      simp only [Bool.and_eq_true, List.all_eq_true, decide_eq_true_eq]
      exact ⟨⟨⟨h46, hv⟩, hp2⟩, hx⟩

theorem facetTree_cases (f : List Nat) :
    facetTree f = .Vendor ∨ facetTree f = .Personal ∨ facetTree f = .Private ∨
      (facetTree f = .Unregistered f ∧ f ≠ bVnd ∧ f ≠ bPrs ∧ f ≠ bXf) := by
  unfold facetTree
  split_ifs with h1 h2 h3
  · exact Or.inl rfl
  · exact Or.inr (Or.inl rfl)
  · exact Or.inr (Or.inr (Or.inl rfl))
  · exact Or.inr (Or.inr (Or.inr ⟨rfl, h1, h2, h3⟩))

theorem facetTree_unreg (fc f : List Nat) (h : facetTree fc = .Unregistered f) :
    (∀ b ∈ fc, b ≠ 46) → (∀ b ∈ f, b ≠ 46) ∧ f ≠ bVnd ∧ f ≠ bPrs ∧ f ≠ bXf := by
  intro h46
  rcases facetTree_cases fc with hf | hf | hf | ⟨hf, hv, hpr, hx⟩ <;>
    rw [hf] at h
  · exact absurd h (by simp)
  · exact absurd h (by simp)
  · exact absurd h (by simp)
  · cases Tree.Unregistered.inj h
    exact ⟨h46, hv, hpr, hx⟩

theorem facetTree_ne_standards (fc : List Nat) :
    facetTree fc ≠ .Standards := by
  rcases facetTree_cases fc with hf | hf | hf | ⟨hf, -, -, -⟩ <;> rw [hf] <;> simp

theorem structureSubtype_sound (st : List Nat)
    (sub0 : Option (Tree × List Nat × Option (List Nat)))
    (h : structureSubtype st = .ok sub0)
    (hb : ∀ b ∈ st, lowerByte b = b ∧ is_whitespace b = false ∧ b ≠ 59)
    (hlen : st.length ≤ 127) :
    subSafe sub0 = true := by
  unfold structureSubtype at h
  by_cases hstar : st = bStar
  · rw [if_pos hstar] at h
    cases Except.ok.inj h
    rfl
  · rw [if_neg hstar] at h
    by_cases hu : utf8Valid st = true
    · rw [if_pos hu] at h
      cases hr : rsplitPlus st with
      | some pr =>
        obtain ⟨p, s⟩ := pr
        rw [hr] at h
        dsimp only at h
        obtain ⟨hsp, hnos⟩ := rsplitPlus_some st p s hr
        cases hd : splitDot p with
        | some fr =>
          obtain ⟨fc, r⟩ := fr
          rw [hd] at h
          dsimp only at h
          cases Except.ok.inj h
          obtain ⟨hp2, hnof⟩ := splitDot_some p fc r hd
          refine subSafe_build (facetTree fc) r (some s) st ?_ hu hb hlen hstar
            (fun s2 hs2 => by cases Option.some.inj hs2; exact hnos)
            (fun hn => by simp at hn)
            (fun f hf => facetTree_unreg fc f hf hnof)
            (fun hf => absurd hf (facetTree_ne_standards fc))
          unfold stokOf
          rw [displayTree_facetTree, hsp, hp2]
          simp
        | none =>
          rw [hd] at h
          dsimp only at h
          cases Except.ok.inj h
          refine subSafe_build .Standards p (some s) st ?_ hu hb hlen hstar
            (fun s2 hs2 => by cases Option.some.inj hs2; exact hnos)
            (fun hn => by simp at hn)
            (fun f hf => by simp at hf)
            (fun _ => (splitDot_none_iff p).mp hd)
          unfold stokOf
          rw [hsp]
          simp [displayTree]
      | none =>
        rw [hr] at h
        dsimp only at h
        have hno43 : ∀ b ∈ st, b ≠ 43 := (rsplitPlus_none_iff st).mp hr
        cases hd : splitDot st with
        | some fr =>
          obtain ⟨fc, r⟩ := fr
          rw [hd] at h
          dsimp only at h
          cases Except.ok.inj h
          obtain ⟨hp2, hnof⟩ := splitDot_some st fc r hd
          refine subSafe_build (facetTree fc) r none st ?_ hu hb hlen hstar
            (fun s2 hs2 => by simp at hs2)
            (fun _ => hno43)
            (fun f hf => facetTree_unreg fc f hf hnof)
            (fun hf => absurd hf (facetTree_ne_standards fc))
          unfold stokOf
          rw [displayTree_facetTree]
          simp [hp2]
        | none =>
          rw [hd] at h
          dsimp only at h
          cases Except.ok.inj h
          refine subSafe_build .Standards st none st ?_ hu hb hlen hstar
            (fun s2 hs2 => by simp at hs2)
            (fun _ => hno43)
            (fun f hf => by simp at hf)
            (fun _ => (splitDot_none_iff st).mp hd)
          simp [stokOf, displayTree]
    · rw [if_neg hu] at h
      simp at h

set_option maxHeartbeats 2000000 in
theorem typeOfBytes_sound (ty : List Nat) (t0 : Option TType)
    (h : typeOfBytes ty = .ok t0)
    (hb : ∀ b ∈ ty, lowerByte b = b ∧ b ≠ 47)
    (hhd : headNonWs ty = true) (hlen : ty.length ≤ 127) :
    typeSafe t0 = true := by
  unfold typeOfBytes at h
  split_ifs at h with h1 h2 h3 h4 h5 h6 h7 h8 h9 h10
  · cases Except.ok.inj h
    rfl
  · cases Except.ok.inj h
    rfl
  · cases Except.ok.inj h
    rfl
  · cases Except.ok.inj h
    rfl
  · cases Except.ok.inj h
    rfl
  · cases Except.ok.inj h
    rfl
  · cases Except.ok.inj h
    rfl
  · cases Except.ok.inj h
    rfl
  · cases Except.ok.inj h
    rfl
  · cases Except.ok.inj h
    simp only [typeSafe, Bool.and_eq_true, decide_eq_true_eq]
    refine ⟨⟨⟨⟨⟨⟨⟨⟨⟨⟨⟨⟨⟨h10, ?_⟩, ?_⟩, hhd⟩, hlen⟩, h1⟩, h2⟩, h3⟩, h4⟩, h5⟩,
      h6⟩, h7⟩, h8⟩, h9⟩
    · simp only [lowerFixed, List.all_eq_true, beq_iff_eq]
      intro b hbm
      exact (hb b hbm).1
    · simp only [List.all_eq_true, decide_eq_true_eq]
      intro b hbm
      exact (hb b hbm).2

theorem parse_media_type_sound (l ty st : List Nat) (ps : Params)
    (h : parse_media_type l = some (.ok (ty, st, ps))) :
    (∀ b ∈ ty, lowerByte b = b ∧ b ≠ 47) ∧ headNonWs ty = true ∧
      ty.length ≤ 127 ∧
      (∀ b ∈ st, lowerByte b = b ∧ is_whitespace b = false ∧ b ≠ 59) ∧
      st.length ≤ 127 ∧
      sortedKeys ps = true ∧ (∀ kv ∈ ps, KeyInv kv.1) := by
  unfold parse_media_type at h
  by_cases hnil : l = []
  · rw [if_pos hnil] at h
    simp at h
  · rw [if_neg hnil] at h
    cases hsw : skipWsStrict (F l) l with
    | none => rw [hsw] at h; simp at h
    | some l1 =>
      rw [hsw] at h
      dsimp only at h
      cases htl : typeLoop (F l) 0 [] l1 with
      | none => rw [htl] at h; simp at h
      | some r1 =>
        rw [htl] at h
        cases r1 with
        | error e => simp at h
        | ok tyr =>
          obtain ⟨ty0, l2⟩ := tyr
          dsimp only at h
          cases hsl : subtypeLoop (F l) 0 [] l2 with
          | none => rw [hsl] at h; simp at h
          | some r2 =>
            rw [hsl] at h
            cases r2 with
            | error e => simp at h
            | ok str =>
              obtain ⟨st0, l3⟩ := str
              dsimp only at h
              cases hpl : paramsLoop (F l) [] l3 with
              | none => rw [hpl] at h; simp at h
              | some r3 =>
                rw [hpl] at h
                cases r3 with
                | error e => simp at h
                | ok ps0 =>
                  dsimp only at h
                  simp only [Option.some.injEq, Except.ok.injEq,
                    Prod.mk.injEq] at h
                  obtain ⟨hty, hst, hps⟩ := h
                  subst hty
                  subst hst
                  subst hps
                  obtain ⟨b1, r1, hl1, hb1⟩ := skipWsStrict_sound (F l) l l1 hsw
                  obtain ⟨t, hty0, htb, htlen, hthd⟩ :=
                    typeLoop_sound (F l) 0 [] l1 ty0 l2 htl
                  obtain ⟨t2, hst0, hstb, hstlen⟩ :=
                    subtypeLoop_sound (F l) 0 [] l2 st0 l3 hsl
                  obtain ⟨hpsort, hpinv⟩ :=
                    paramsLoop_sound (F l) [] l3 ps0 hpl rfl (by simp)
                  refine ⟨by rw [hty0]; simpa using htb, ?_,
                    by rw [hty0]; simpa using htlen,
                    by rw [hst0]; simpa using hstb,
                    by rw [hst0]; simpa using hstlen, hpsort, hpinv⟩
                  rw [hty0, List.nil_append]
                  rcases hthd with rfl | ⟨b0, r0, hlb, t3, rfl⟩
                  · rfl
                  · rw [hl1] at hlb
                    cases (List.cons.inj hlb).1
                    simp only [headNonWs, Bool.not_eq_true']
                    cases hx : is_whitespace (lowerByte b1) with
                    | false => rfl
                    | true =>
                      rw [is_whitespace_lowerByte_eq b1 hx] at hb1
                      exact hb1

theorem fromStr_sound (l : List Nat) (m : MediaType)
    (h : fromStr l = some (.ok m)) :
    typeSafe m.type_ = true ∧ subSafe m.subtype = true ∧
      sortedKeys m.parameters = true ∧
      ∀ kv ∈ m.parameters,
        KeyInv kv.1 ∧ utf8Valid kv.1 = true ∧ utf8Valid kv.2 = true := by
  unfold fromStr at h
  cases hp : parse_media_type l with
  | none => rw [hp] at h; simp at h
  | some r =>
    rw [hp] at h
    cases r with
    | error e => simp at h
    | ok tsp =>
      obtain ⟨ty, st, ps⟩ := tsp
      dsimp only at h
      obtain ⟨htyb, htyhd, htylen, hstb, hstlen, hpssort, hpsinv⟩ :=
        parse_media_type_sound l ty st ps hp
      cases hto : typeOfBytes ty with
      | error e => rw [hto] at h; simp at h
      | ok t0 =>
        rw [hto] at h
        dsimp only at h
        cases hcv : convertParams [] ps with
        | error e => rw [hcv] at h; simp at h
        | ok params =>
          rw [hcv] at h
          dsimp only at h
          cases hss : structureSubtype st with
          | error e => rw [hss] at h; simp at h
          | ok sub =>
            rw [hss] at h
            dsimp only at h
            simp only [Option.some.injEq, Except.ok.injEq] at h
            subst h
            obtain ⟨hqsort, hqinv⟩ :=
              convertParams_sound ps [] params hcv rfl (by simp) hpsinv
            exact ⟨typeOfBytes_sound ty t0 hto htyb htyhd htylen,
              structureSubtype_sound st sub hss hstb hstlen, hqsort, hqinv⟩

/-- Reparsing the serialization of a safe value recovers the raw type token,
the raw subtype token and the parameter map. -/
theorem parse_media_type_display (m : MediaType) (h : rtSafe m = true) :
    parse_media_type (display m) =
      some (.ok (tyRender m, stRender m, m.parameters)) := by
  have hrt := h
  simp only [rtSafe, Bool.and_eq_true] at hrt
  obtain ⟨⟨⟨⟨htype, hsub⟩, hsorted⟩, hpairs⟩, hwild⟩ := hrt
  have hpairs2 : ∀ kv ∈ m.parameters, pairSafe kv.1 kv.2 = true := by
    simpa only [List.all_eq_true] using hpairs
  have hdec : display m =
      tyRender m ++ 47 :: (stRender m ++ renderParams m.parameters) := by
    rw [display_decomp m, sortP_id m.parameters hsorted]
  unfold parse_media_type
  rw [hdec]
  have hne : tyRender m ++ 47 :: (stRender m ++ renderParams m.parameters) ≠ [] := by
    simp
  rw [if_neg hne]
  have hhd : headNonWs (tyRender m ++ 47 ::
      (stRender m ++ renderParams m.parameters)) = true :=
    headNonWs_append47 _ _ (tyRender_headNonWs m htype)
  have hFlen : F (tyRender m ++ 47 :: (stRender m ++ renderParams m.parameters)) =
      (tyRender m).length + (stRender m).length +
        (renderParams m.parameters).length + 9 := by
    simp only [F, List.length_append, List.length_cons]
    omega
  rw [skipWsStrict_run _ _ hne hhd (by rw [hFlen]; omega)]
  dsimp only
  rw [typeLoop_run (tyRender m) (stRender m ++ renderParams m.parameters) [] 0 _
    (tyRender_bytes m htype) (by have := tyRender_len m htype; omega)
    (by rw [hFlen]; omega)]
  dsimp only
  rw [subtypeLoop_run (stRender m) (renderParams m.parameters) [] 0 _
    (stRender_bytes m h) (by have := stRender_len m h; omega)
    (by rw [hFlen]; omega) (renderParams_shape m.parameters)]
  dsimp only
  rw [paramsLoop_run m.parameters [] _ hpairs2 (by rw [hFlen]; omega)]
  rw [insertAllP_nil m.parameters hsorted]
  rfl

/-- Serializing a safe value and parsing it back is the identity. -/
theorem fromStr_display (m : MediaType) (h : rtSafe m = true) :
    fromStr (display m) = some (.ok m) := by
  have hrt := h
  simp only [rtSafe, Bool.and_eq_true] at hrt
  obtain ⟨⟨⟨⟨htype, hsub⟩, hsorted⟩, hpairs⟩, hwild⟩ := hrt
  have hutfs : ∀ kv ∈ m.parameters, utf8Valid kv.1 = true ∧ utf8Valid kv.2 = true := by
    intro kv hkv
    simp only [List.all_eq_true] at hpairs
    have h2 := hpairs kv hkv
    simp only [pairSafe, Bool.and_eq_true] at h2
    exact ⟨h2.1.1.1.1.1, h2.1.1.1.1.2⟩
  unfold fromStr
  rw [parse_media_type_display m h]
  dsimp only
  rw [typeOfBytes_tyRender m htype]
  dsimp only
  rw [convertParams_run m.parameters [] hutfs, insertAllP_nil m.parameters hsorted]
  dsimp only
  rw [structureSubtype_stRender m h]

/-- Claim C2, amended: for every parser-produced value `m`, parsing the
canonical serialization returns `Ok(m)` again, provided (the three
restrictions forced by counterexamples): `m` is not a wildcard type carrying
a concrete subtype (`Display` prints `*/*` then, dropping the subtype), no
parameter key contains whitespace (the name accumulator re-appends skipped
whitespace on reparse), and no parameter value contains a `"` or `\` byte
(the serializer does not escape them).  All other invariants needed for the
round trip (lowercased fields, no delimiter bytes inside tokens, length
caps, valid UTF-8, canonical sorted parameter map) are established by
`fromStr_sound` for every parser output. -/
theorem claim2_roundtrip (l : List Nat) (m : MediaType)
    (hparse : fromStr l = some (.ok m))
    (hwild : m.type_ = none → m.subtype = none)
    (hkeys : ∀ kv ∈ m.parameters, ∀ b ∈ kv.1, is_whitespace b = false)
    (hvals : ∀ kv ∈ m.parameters, ∀ b ∈ kv.2, b ≠ 34 ∧ b ≠ 92) :
    fromStr (display m) = some (.ok m) := by
  obtain ⟨htype, hsub, hsorted, hpairs⟩ := fromStr_sound l m hparse
  apply fromStr_display
  simp only [rtSafe, Bool.and_eq_true]
  refine ⟨⟨⟨⟨htype, hsub⟩, hsorted⟩, ?_⟩, ?_⟩
  · simp only [List.all_eq_true]
    intro kv hkv
    obtain ⟨⟨hkb, hklen⟩, hu1, hu2⟩ := hpairs kv hkv
    simp only [pairSafe, Bool.and_eq_true]
    refine ⟨⟨⟨⟨⟨hu1, hu2⟩, ?_⟩, ?_⟩, ?_⟩, ?_⟩
    · simp only [lowerFixed, List.all_eq_true, beq_iff_eq]
      intro b hb
      exact (hkb b hb).1
    · simp only [List.all_eq_true, Bool.and_eq_true, Bool.not_eq_true',
        decide_eq_true_eq]
      intro b hb
      exact ⟨hkeys kv hkv b hb, (hkb b hb).2⟩
    · simpa using hklen (hkeys kv hkv)
    · simp only [List.all_eq_true, Bool.and_eq_true, decide_eq_true_eq]
      intro b hb
      exact hvals kv hkv b hb
  · cases ht : m.type_ with
    | none =>
      have := hwild ht
      simp [this]
    | some t => rfl

theorem claim2_witness :
    fromStr w2in = some (.ok w2mt) ∧
      (w2mt.type_ = none → w2mt.subtype = none) ∧
      (∀ kv ∈ w2mt.parameters, ∀ b ∈ kv.1, is_whitespace b = false) ∧
      (∀ kv ∈ w2mt.parameters, ∀ b ∈ kv.2, b ≠ 34 ∧ b ≠ 92) ∧
      fromStr (display w2mt) = some (.ok w2mt) :=
  ⟨rfl, by decide, by decide, by decide,
    claim2_roundtrip w2in w2mt rfl (by decide) (by decide) (by decide)⟩

/-- Claim C10: whenever `type_` is `None`, `Display` renders `*/*` followed
by the sorted parameters, ignoring the subtype field entirely. -/
theorem claim10_theorem (m : MediaType) (h : m.type_ = none) :
    display m = [42, 47, 42] ++ renderParams (sortP m.parameters) := by
  unfold display
  rw [h]
  rfl

theorem claim10_witness :
    (⟨none, some (.Standards, bHtml, none), []⟩ : MediaType).type_ = none ∧
      display ⟨none, some (.Standards, bHtml, none), []⟩ =
        [42, 47, 42] ++ renderParams (sortP ([] : Params)) :=
  ⟨rfl, claim10_theorem _ rfl⟩

end MediaTypes
